import Mathlib

/-!
The cache lookup/insert pipeline of `ccache.c`.

A shallow embedding of the functions of `src/ccache.c` that classify the
command line (`process_args`), select the hashed arguments (`find_hash`),
strip line directives from the preprocessor output (`stabs_hash`), resolve
the real compiler (`find_compiler`) and move files in and out of the cache
(`to_cache`, `from_cache`), followed by theorems about them.

Conventions of the embedding:

* a C string is a `String` (no NUL inside); `argv` is a `List String`;
* a function that may call `failed()` or `exit()` returns an `Outcome`;
* the for-loops over `argv` are recursions over the arguments that remain
  (`argv[i..argc-1]`): `i == argc-1` reads "nothing follows the argument",
  and `i++; continue` drops two arguments;
* logging (`cc_log`) and statistics (`stats_update`, `stats_tocache`) belong
  to collaborators outside this file and are left out.
-/

namespace Ccache

/-! ## Common definitions -/

/-- How a function of the wrapper ends: it returns to its caller, it calls
`failed()` (the fallback executor: `execv` of `orig_args`), or it calls
`exit(status)`. The constructor `undefined` stands for C undefined behaviour
(a NULL pointer handed to a string function). -/
inductive Outcome (α : Type) where
  | returned (a : α)
  | failed
  | exited (status : Int)
  | undefined
  deriving DecidableEq

/-- The test `strncmp(s, t, n) == 0`: the first `n` characters agree. -/
def strncmp_eq (s t : String) (n : Nat) : Bool :=
  s.data.take n == t.data.take n

/-- The test `s[0] == c`. -/
def first_char_is (s : String) (c : Char) : Bool :=
  s.data.head? == some c

/-! ## `process_args` (lines 411-541) -/

/-- The variables `process_args` works on: its locals `found_c_opt`,
`found_S_opt`, `input_file` and the globals `stripped_args`, `output_file`,
`found_debug`. -/
structure ArgState where
  stripped_args : List String
  found_c_opt : Bool
  found_S_opt : Bool
  input_file : Option String
  output_file : Option String
  found_debug : Bool
  deriving DecidableEq

/-- The state at the start of the loop: `args_add(stripped_args, argv[0])`,
the locals zeroed, the two static globals still zero. -/
def ArgState.init (argv0 : String) : ArgState :=
  { stripped_args := [argv0], found_c_opt := false, found_S_opt := false,
    input_file := none, output_file := none, found_debug := false }

/-- The call `args_add(stripped_args, a)`. -/
def ArgState.add (st : ArgState) (a : String) : ArgState :=
  { st with stripped_args := st.stripped_args ++ [a] }

/-- The loop `for (i=1; i<argc; i++)` of `process_args` (lines 423-508), on
the arguments `argv[i..argc-1]` that remain. `isreg p` is the test
`stat(p, &st) == 0 && S_ISREG(st.st_mode)`. -/
def process_args_loop (isreg : String → Bool) : List String → ArgState → Outcome ArgState
  | [], st => .returned st
  | a :: rest, st =>
    if strncmp_eq a "-E" 2 || strncmp_eq a "-M" 2 then .failed
    else if a = "-c" then
      process_args_loop isreg rest { st.add a with found_c_opt := true }
    else if a = "-S" then
      process_args_loop isreg rest { st.add a with found_S_opt := true }
    else if a = "-o" then
      match rest with
      | [] => .failed
      | v :: rest2 => process_args_loop isreg rest2 { st with output_file := some v }
    else if strncmp_eq a "-g" 2 then
      process_args_loop isreg rest
        { st.add a with found_debug := if a ≠ "-g0" then true else st.found_debug }
    else if a = "-I" || a = "-include" || a = "-L" || a = "-D" || a = "-isystem" then
      match rest with
      | [] => .failed
      | v :: rest2 => process_args_loop isreg rest2 ((st.add a).add v)
    else if first_char_is a '-' then
      process_args_loop isreg rest (st.add a)
    else if !isreg a then
      process_args_loop isreg rest (st.add a)
    else
      match st.input_file with
      | some _ => .failed
      | none => process_args_loop isreg rest { st.add a with input_file := some a }

/-- The function `strrchr(s, c)` as the index of the last `c` in `s`. -/
def strrchr (s : List Char) (c : Char) : Option Nat :=
  match s with
  | [] => none
  | x :: xs =>
    match strrchr xs c with
    | some i => some (i + 1)
    | none => if x = c then some 0 else none

/-- Lines 525-527: `if ((p = strrchr(output_file, '/'))) output_file = p+1;`,
the part of the buffer behind its last `'/'`. -/
def skip_directories (buf : List Char) : List Char :=
  match strrchr buf '/' with
  | some p => buf.drop (p + 1)
  | none => buf

/-- Lines 528-535: `p` is the last `'.'` of `out`; without one, or with
`p[1] == 0`, the function calls `failed()` (here `none`); otherwise `p[1]` is
overwritten with the letter and `p[2]` with the terminator. -/
def replace_extension (out : List Char) (letter : Char) : Option (List Char) :=
  match strrchr out '.' with
  | none => none
  | some p =>
    match out.get? (p + 1) with
    | none => none
    | some _ => some (out.take (p + 1) ++ [letter])

/-- Lines 524-535: the output name formed from a copy of `input_file`, or
`none` where the code calls `failed()`. -/
def derive_output (input_file : String) (found_S_opt : Bool) : Option String :=
  (replace_extension (skip_directories input_file.data)
    (if found_S_opt then 's' else 'o')).map String.mk

/-- The body of `process_args(argc, argv)` for `argv = argv0 :: args`. -/
def process_args (isreg : String → Bool) (argv0 : String) (args : List String) :
    Outcome ArgState :=
  match process_args_loop isreg args (ArgState.init argv0) with
  | .returned st =>
    match st.input_file with
    | none => .failed
    | some input =>
      if !st.found_c_opt then .failed
      else
        match st.output_file with
        | some _ => .returned st
        | none =>
          match derive_output input st.found_S_opt with
          | none => .failed
          | some out => .returned { st with output_file := some out }
  | .failed => .failed
  | .exited n => .exited n
  | .undefined => .undefined

/-! ### The vocabulary of the claims about `process_args` -/

/-- The flags whose value is the next argument: `-o` and the five options of
lines 468-472. -/
def takes_value (a : String) : Bool :=
  a = "-o" || a = "-I" || a = "-include" || a = "-L" || a = "-D" || a = "-isystem"

/-- The arguments that stand in option position: every argument that is not
the value consumed by a preceding `-o`, `-I`, `-include`, `-L`, `-D` or
`-isystem`. -/
def option_args : List String → List String
  | [] => []
  | [a] => [a]
  | a :: v :: rest =>
    if takes_value a then a :: option_args rest else a :: option_args (v :: rest)

/-- The argument list with each `-o` in option position and the path that
follows it removed. -/
def without_o : List String → List String
  | [] => []
  | [a] => [a]
  | a :: v :: rest =>
    if a = "-o" then without_o rest
    else if takes_value a then a :: v :: without_o rest
    else a :: without_o (v :: rest)

/-- The paths that follow a `-o` in option position, in order. -/
def o_paths : List String → List String
  | [] => []
  | [_] => []
  | a :: v :: rest =>
    if a = "-o" then v :: o_paths rest
    else if takes_value a then o_paths rest
    else o_paths (v :: rest)

/-- A flag that takes a value stands in option position as the last argument,
with no value after it ("missing argument to an option-taking flag"). -/
def flag_without_value : List String → Bool
  | [] => false
  | [a] => takes_value a
  | a :: v :: rest =>
    if takes_value a then flag_without_value rest else flag_without_value (v :: rest)

/-- The operands: the arguments in option position that do not begin with
`'-'` and name an existing regular file. -/
def operands (isreg : String → Bool) (args : List String) : List String :=
  (option_args args).filter (fun a => !first_char_is a '-' && isreg a)

/-- What a scan of `args` that returns has done to the state: the relation
between the state `st` before and the state `st2` after the loop. -/
structure LoopSpec (isreg : String → Bool) (args : List String) (st st2 : ArgState) : Prop where
  stripped : st2.stripped_args = st.stripped_args ++ without_o args
  output : st2.output_file = ((o_paths args).getLast?).or st.output_file
  found_c : st2.found_c_opt = (st.found_c_opt || decide ("-c" ∈ option_args args))
  found_S : st2.found_S_opt = (st.found_S_opt || decide ("-S" ∈ option_args args))
  input_none : st.input_file = none →
    st2.input_file = (operands isreg args).head? ∧ (operands isreg args).length ≤ 1
  input_some : ∀ f, st.input_file = some f →
    st2.input_file = some f ∧ operands isreg args = []
  cacheable : ∀ a ∈ option_args args, (strncmp_eq a "-E" 2 || strncmp_eq a "-M" 2) = false

/-! ## `find_hash`: the arguments that are hashed (lines 175-198) -/

/-- The loop `for (i=0; i<args->argc; i++)` of `find_hash`: the arguments it
hands to `hash_string`, in order. While `i < args->argc-1` (an argument
follows) a separated flag is skipped with its value (`i++; continue`) and an
attached form is skipped alone (`continue`); the last argument fails the guard
and goes to `hash_string`. -/
def find_hash_args : List String → List String
  | [] => []
  | [a] => [a]
  | a :: v :: rest =>
    if a = "-I" || a = "-include" || a = "-L" || a = "-D" || a = "-isystem" then
      find_hash_args rest
    else if strncmp_eq a "-I" 2 || strncmp_eq a "-L" 2 || strncmp_eq a "-D" 2 ||
        strncmp_eq a "-isystem" 8 then
      find_hash_args (v :: rest)
    else a :: find_hash_args (v :: rest)

/-- The separated flags `-I`, `-include`, `-L`, `-D`, `-isystem`. -/
def is_separated_flag (a : String) : Bool :=
  a = "-I" || a = "-include" || a = "-L" || a = "-D" || a = "-isystem"

/-- A single token beginning with `-I`, `-L`, `-D` or `-isystem`. -/
def is_attached_form (a : String) : Bool :=
  strncmp_eq a "-I" 2 || strncmp_eq a "-L" 2 || strncmp_eq a "-D" 2 || strncmp_eq a "-isystem" 8

/-- The selection in the words of the specification: every separated flag is
removed together with the value that follows it, every token beginning with
`-I`, `-L`, `-D` or `-isystem` is removed, at every position, the last one
included; every other argument is hashed. -/
def spec_hash_args : List String → List String
  | [] => []
  | [a] => if is_separated_flag a || is_attached_form a then [] else [a]
  | a :: v :: rest =>
    if is_separated_flag a then spec_hash_args rest
    else if is_attached_form a then spec_hash_args (v :: rest)
    else a :: spec_hash_args (v :: rest)

/-! ## `stabs_hash` (lines 139-155) -/

/-- The test `isdigit(b)` in the C locale. -/
def is_digit (b : Nat) : Bool := 48 ≤ b && b ≤ 57

/-- The largest value of the C type `int` of `l_start` and `l_end`. -/
def INT_MAX : Nat := 2147483647

/-- The result of running a loop of `stabs_hash` with a bound on the number of
tests of its condition: the loop has ended with a result; an `int` would pass
`INT_MAX` (signed overflow, undefined behaviour); or the bound is used up
before the loop ends. -/
inductive Scan (α : Type) where
  | done (a : α)
  | overflow
  | unfinished
  deriving DecidableEq

/-- The result of a finished run changed by `f`. -/
def Scan.map {α β : Type} (f : α → β) : Scan α → Scan β
  | .done a => .done (f a)
  | .overflow => .overflow
  | .unfinished => .unfinished

/-- The inner loop `while (l_end < st.st_size && map[l_end] != '\n') l_end++`
(lines 142-144): the final `l_end`. -/
def scan_line (map : List Nat) (size : Nat) : Nat → Nat → Scan Nat
  | 0, _ => .unfinished
  | fuel + 1, l_end =>
    if l_end < size ∧ map.getD l_end 0 ≠ 10 then
      if l_end + 1 ≤ INT_MAX then scan_line map size fuel (l_end + 1) else .overflow
    else .done l_end

/-- The outer loop `while (l_start < st.st_size)` (lines 140-155), started at
`l_start`: the calls `hash_buffer(&map[off], len)` it makes, each as the pair
`(off, len)`. Both `1 + l_end - l_start` (line 153) and `l_end+1` (lines 150
and 154) are computed in `int`. -/
def stabs_hash_loop (map : List Nat) (size : Nat) : Nat → Nat → Scan (List (Nat × Nat))
  | 0, _ => .unfinished
  | fuel + 1, l_start =>
    if l_start < size then
      match scan_line map size (size - l_start + 1) l_start with
      | .unfinished => .unfinished
      | .overflow => .overflow
      | .done l_end =>
        if l_end - l_start > 2 ∧ map.getD l_start 0 = 35 ∧ map.getD (l_start + 1) 0 = 32 ∧
            is_digit (map.getD (l_start + 2) 0) = true then
          if l_end + 1 ≤ INT_MAX then stabs_hash_loop map size fuel (l_end + 1)
          else .overflow
        else
          if 1 + l_end ≤ INT_MAX then
            (stabs_hash_loop map size fuel (l_end + 1)).map
              (fun calls => (l_start, 1 + l_end - l_start) :: calls)
          else .overflow
    else .done []

/-- The loop of lines 139-155 on a mapped file with the bytes `map`
(`st.st_size = map.length`). Every iteration moves `l_start` forward, so
`map.length + 1` tests of the loop condition are enough: the result is never
`unfinished` (`stabs_hash_never_unfinished`). -/
def stabs_hash_calls (map : List Nat) : Scan (List (Nat × Nat)) :=
  stabs_hash_loop map map.length (map.length + 1) 0

/-- The function `stabs_hash(fname)` (lines 115-158): the calls to
`hash_buffer` it makes when it returns. `opened` is the content of the file
when `open` and `fstat` succeed (lines 122-127); a mapping of length 0 fails
with `EINVAL`, and `mmap_ok` says whether the mapping of a non-empty file
succeeds (lines 132-136); in the failure cases the function calls `failed()`
and no byte is hashed. -/
def stabs_hash (opened : Option (List Nat)) (mmap_ok : Bool) : Outcome (List (Nat × Nat)) :=
  match opened with
  | none => .failed
  | some map =>
    if map.length = 0 ∨ mmap_ok = false then .failed
    else
      match stabs_hash_calls map with
      | .done calls => .returned calls
      | .overflow => .undefined
      | .unfinished => .undefined

/-- The memory the mapping gives access to: the bytes of the file, followed by
whatever lies behind the file (`beyond k` is the byte at offset
`st.st_size + k`). -/
def mapped_memory (map : List Nat) (beyond : Nat → Nat) (i : Nat) : Nat :=
  if i < map.length then map.getD i 0 else beyond (i - map.length)

/-- The bytes `hash_buffer` reads for a list of calls, in order. -/
def hashed_bytes (mem : Nat → Nat) (calls : List (Nat × Nat)) : List Nat :=
  calls.flatMap (fun c => (List.range c.2).map (fun k => mem (c.1 + k)))

/-- The lines of a byte string, each with its terminating newline when it has
one. -/
def lines_with_newline : List Nat → List (List Nat)
  | [] => []
  | b :: rest =>
    if b = 10 then [10] :: lines_with_newline rest
    else
      match lines_with_newline rest with
      | [] => [[b]]
      | l :: ls => (b :: l) :: ls

/-- A line whose first three bytes are `'#'`, `' '` and a decimal digit. -/
def is_line_directive : List Nat → Bool
  | 35 :: 32 :: d :: _ => is_digit d
  | _ => false

/-- The input with the line-directive lines removed, each together with its
terminating newline. -/
def strip_directives (input : List Nat) : List Nat :=
  ((lines_with_newline input).filter (fun l => !is_line_directive l)).flatten

/-! ## `find_compiler` (lines 329-404) -/

/-- The error numbers the model of the file system raises. -/
inductive Errno where
  | ENOENT
  | EEXIST
  | EXDEV
  | EACCES
  deriving DecidableEq

/-- A file-system state: the regular files by path name with their content;
for every path name the error, if any, with which adding or removing that name
in its directory fails (`ENOENT`: the directory does not exist, `EACCES`: it is
not writable; `none`: the name can be created and removed); and whether
`link(2)` works between the cache and the output (`EXDEV` otherwise). A hard
link is represented by the equal content of its two names. -/
structure FS where
  file : String → Option (List Nat)
  dir_err : String → Option Errno
  hardlinks : Bool

/-- The state with path `p` bound to `v`. -/
def FS.set (fs : FS) (p : String) (v : Option (List Nat)) : FS :=
  { fs with file := fun q => if q = p then v else fs.file q }

/-- The call `stat(p, &st)`: `st.st_size` when it succeeds. -/
def FS.stat (fs : FS) (p : String) : Option Nat :=
  (fs.file p).map List.length

/-- The call `open(p, O_RDONLY)`: the content the descriptor reads. -/
def FS.open_read (fs : FS) (p : String) : Option (List Nat) :=
  fs.file p

/-- The call `unlink(p)`, whose result no caller looks at. -/
def FS.unlink (fs : FS) (p : String) : FS :=
  match fs.dir_err p with
  | some _ => fs
  | none => fs.set p none

/-- The call `rename(a, b)`. -/
def FS.rename (fs : FS) (a b : String) : Except Errno FS :=
  match fs.file a with
  | none => .error Errno.ENOENT
  | some content =>
    match fs.dir_err a with
    | some e => .error e
    | none =>
      match fs.dir_err b with
      | some e => .error e
      | none => .ok ((fs.set a none).set b (some content))

/-- The call `link(a, b)`. -/
def FS.link (fs : FS) (a b : String) : Except Errno FS :=
  match fs.file a with
  | none => .error Errno.ENOENT
  | some content =>
    match fs.file b with
    | some _ => .error Errno.EEXIST
    | none =>
      match fs.dir_err b with
      | some e => .error e
      | none => if fs.hardlinks then .ok (fs.set b (some content)) else .error Errno.EXDEV

/-- Modelled from the spec: the helper `copy_file(src, dest)` of the
repository, the "full byte copy" of the lookup; `none` is its return value -1
(the source cannot be read or the destination cannot be created). -/
def copy_file (fs : FS) (src dest : String) : Option FS :=
  match fs.file src with
  | none => none
  | some content =>
    match fs.dir_err dest with
    | some _ => none
    | none => some (fs.set dest (some content))

/-- The process state the two functions work on: the file system and the bytes
written to file descriptor 2 so far. -/
structure World where
  fs : FS
  fd2 : List Nat

/-- The globals and the process id the two functions read: `cache_dir`,
`getpid()`, `output_file`, `hashname`. -/
structure Ctx where
  cache_dir : String
  pid : Nat
  output_file : String
  hashname : String

/-- The name `"%s/tmp.stdout.%d"` of lines 52 and 211. -/
def Ctx.tmp_stdout (ctx : Ctx) : String :=
  ctx.cache_dir ++ "/tmp.stdout." ++ toString ctx.pid

/-- The name `"%s/tmp.stderr.%d"` of lines 53 and 212. -/
def Ctx.tmp_stderr (ctx : Ctx) : String :=
  ctx.cache_dir ++ "/tmp.stderr." ++ toString ctx.pid

/-- The name `"%s/tmp.hash.%d.o"` of line 54. -/
def Ctx.tmp_hashname (ctx : Ctx) : String :=
  ctx.cache_dir ++ "/tmp.hash." ++ toString ctx.pid ++ ".o"

/-- The name `"%s.stderr"` built from `hashname` (lines 91 and 269). -/
def Ctx.path_stderr (ctx : Ctx) : String :=
  ctx.hashname ++ ".stderr"

/-- Lines 247 and 252 of `find_hash`: `hashname` for the digest whose first
character is `c` and whose remainder is `rest`, `"%s/%c"` then `"%s/%s"`. -/
def hashname_of (cache_dir : String) (c : Char) (rest : String) : String :=
  cache_dir ++ "/" ++ String.singleton c ++ "/" ++ rest

/-- The function `to_cache(args)`. `execute` is the process runner
`execute(argv, path_stdout, path_stderr)` of the repository: it runs the
compiler, which may change the file system in any way, and gives the exit
status. -/
def to_cache (execute : List String → String → String → FS → Int × FS) (ctx : Ctx)
    (args : List String) (w : World) : Outcome Unit × World :=
  let run := execute (args ++ ["-o", ctx.tmp_hashname]) ctx.tmp_stdout ctx.tmp_stderr w.fs
  let status := run.1
  let fs1 := run.2
  if fs1.stat ctx.tmp_stdout ≠ some 0 then
    (.failed,
      { w with fs := ((fs1.unlink ctx.tmp_stdout).unlink ctx.tmp_stderr).unlink ctx.tmp_hashname })
  else
    let fs2 := fs1.unlink ctx.tmp_stdout
    if status ≠ 0 then
      match fs2.open_read ctx.tmp_stderr with
      | none => (.failed, { w with fs := (fs2.unlink ctx.tmp_stderr).unlink ctx.tmp_hashname })
      | some err =>
        match fs2.rename ctx.tmp_hashname ctx.output_file with
        | .ok fs3 => (.exited status, { fs := fs3.unlink ctx.tmp_stderr, fd2 := w.fd2 ++ err })
        | .error e =>
          if e = Errno.ENOENT then
            (.exited status, { fs := fs2.unlink ctx.tmp_stderr, fd2 := w.fd2 ++ err })
          else (.failed, { w with fs := (fs2.unlink ctx.tmp_stderr).unlink ctx.tmp_hashname })
    else if fs2.stat ctx.tmp_stderr = none then (.failed, { w with fs := fs2 })
    else if fs2.stat ctx.tmp_hashname = none then (.failed, { w with fs := fs2 })
    else
      match fs2.rename ctx.tmp_hashname ctx.hashname with
      | .error _ => (.failed, { w with fs := fs2 })
      | .ok fs3 =>
        match fs3.rename ctx.tmp_stderr ctx.path_stderr with
        | .error _ => (.failed, { w with fs := fs3 })
        | .ok fs4 => (.returned (), { w with fs := fs4 })

/-- The function `from_cache(first)`; `first` only selects logging and
statistics, and `utime` changes no content. -/
def from_cache (ctx : Ctx) (_first : Bool) (w : World) : Outcome Unit × World :=
  match w.fs.open_read ctx.path_stderr with
  | none => (.returned (), w)
  | some err =>
    if w.fs.stat ctx.hashname = none then
      (.returned (), { w with fs := w.fs.unlink ctx.path_stderr })
    else
      let fs1 := w.fs.unlink ctx.output_file
      match fs1.link ctx.hashname ctx.output_file with
      | .ok fs2 => (.exited 0, { fs := fs2, fd2 := w.fd2 ++ err })
      | .error e =>
        if e = Errno.ENOENT then (.returned (), { w with fs := fs1.unlink ctx.path_stderr })
        else
          match copy_file fs1 ctx.hashname ctx.output_file with
          | none => (.failed, { w with fs := fs1 })
          | some fs2 => (.exited 0, { fs := fs2, fd2 := w.fd2 ++ err })

/-- A compiler run for the examples: it exits with `status`, writes `out` to
its standard output file and `err` to its standard error file, and writes the
object `obj`, when there is one, to the path after `-o` (the last argument). -/
def sample_execute (status : Int) (out err : List Nat) (obj : Option (List Nat))
    (argv : List String) (path_stdout path_stderr : String) (fs : FS) : Int × FS :=
  (status, ((fs.set path_stdout (some out)).set path_stderr (some err)).set (argv.getLastD "") obj)

/-- An empty file system in which every name can be created, except that the
directory of the path `missing` does not exist. -/
def sample_fs (missing : String) : FS :=
  { file := fun _ => none,
    dir_err := fun p => if p = missing then some Errno.ENOENT else none,
    hardlinks := true }

/-- The context of the examples: cache `/c`, process 7, digest `ab`. -/
def sample_ctx (output_file : String) : Ctx :=
  { cache_dir := "/c", pid := 7, output_file := output_file,
    hashname := hashname_of "/c" 'a' "b" }

/-! # Theorems -/

/-! ## `process_args` -/

theorem takes_value_iff (a : String) :
    takes_value a = true ↔
      a = "-o" ∨ a = "-I" ∨ a = "-include" ∨ a = "-L" ∨ a = "-D" ∨ a = "-isystem" := by
  simp [takes_value, or_assoc]

theorem first_char_of_strncmp (a t : String) (c d : Char) (ht : t.data = [c, d])
    (h : strncmp_eq a t 2 = true) : first_char_is a c = true := by
  unfold strncmp_eq at h
  unfold first_char_is
  rw [ht] at h
  cases h2 : a.data with
  | nil => simp [h2] at h
  | cons x xs =>
    simp [h2] at h
    simp [h.1]

theorem first_char_of_takes_value (a : String) (h : takes_value a = true) :
    first_char_is a '-' = true := by
  rw [takes_value_iff] at h
  rcases h with h | h | h | h | h | h <;> subst h <;> decide

theorem loop_uncacheable (isreg : String → Bool) (a : String) (rest : List String)
    (st : ArgState) (h : (strncmp_eq a "-E" 2 || strncmp_eq a "-M" 2) = true) :
    process_args_loop isreg (a :: rest) st = .failed := by
  unfold process_args_loop
  simp only [h, if_true]


theorem loop_o (isreg : String → Bool) (v : String) (rest : List String) (st : ArgState) :
    process_args_loop isreg ("-o" :: v :: rest) st
      = process_args_loop isreg rest { st with output_file := some v } := by
  rfl

theorem loop_o_last (isreg : String → Bool) (st : ArgState) :
    process_args_loop isreg ["-o"] st = .failed := by
  rfl

theorem loop_value (isreg : String → Bool) (a v : String) (rest : List String) (st : ArgState)
    (htv : takes_value a = true) (ho : a ≠ "-o") :
    process_args_loop isreg (a :: v :: rest) st
      = process_args_loop isreg rest ((st.add a).add v) := by
  rw [takes_value_iff] at htv
  rcases htv with h | h | h | h | h | h
  · exact absurd h ho
  all_goals (subst h; rfl)

theorem loop_value_last (isreg : String → Bool) (a : String) (st : ArgState)
    (htv : takes_value a = true) :
    process_args_loop isreg [a] st = .failed := by
  rw [takes_value_iff] at htv
  rcases htv with h | h | h | h | h | h <;> subst h <;> rfl

theorem loop_forward (isreg : String → Bool) (a : String) (rest : List String) (st : ArgState)
    (hu : (strncmp_eq a "-E" 2 || strncmp_eq a "-M" 2) = false)
    (htv : takes_value a = false)
    (hf : first_char_is a '-' = true ∨ isreg a = false) :
    ∃ st1, process_args_loop isreg (a :: rest) st = process_args_loop isreg rest st1
      ∧ st1.stripped_args = st.stripped_args ++ [a]
      ∧ st1.output_file = st.output_file
      ∧ st1.input_file = st.input_file
      ∧ st1.found_c_opt = (st.found_c_opt || decide (a = "-c"))
      ∧ st1.found_S_opt = (st.found_S_opt || decide (a = "-S")) := by
  simp [takes_value] at htv
  obtain ⟨⟨⟨⟨⟨h1, h2⟩, h3⟩, h4⟩, h5⟩, h6⟩ := htv
  rw [process_args_loop.eq_def]
  simp only [hu]
  by_cases hc : a = "-c"
  · subst hc
    exact ⟨_, rfl, rfl, rfl, rfl, by simp [ArgState.add], by simp [ArgState.add]⟩
  by_cases hS : a = "-S"
  · subst hS
    exact ⟨_, rfl, rfl, rfl, rfl, by simp [ArgState.add], by simp [ArgState.add]⟩
  by_cases hg : strncmp_eq a "-g" 2 = true
  · simp only [hc, hS, h1, hg, if_false, if_true, Bool.false_eq_true]
    exact ⟨_, rfl, by simp [ArgState.add], by simp [ArgState.add], by simp [ArgState.add],
      by simp [ArgState.add], by simp [ArgState.add]⟩
  have hfwd : (if first_char_is a '-' = true then process_args_loop isreg rest (st.add a)
      else if (!isreg a) = true then process_args_loop isreg rest (st.add a)
      else
        match st.input_file with
        | some _ => Outcome.failed
        | none => process_args_loop isreg rest { st.add a with input_file := some a })
      = process_args_loop isreg rest (st.add a) := by
    rcases hf with hf | hf
    · simp [hf]
    · by_cases hd : first_char_is a '-' = true
      · simp [hd]
      · simp [hd, hf]
  simp only [hc, hS, h1, h2, h3, h4, h5, h6, hg, if_false, Bool.false_eq_true, decide_False,
    Bool.or_self, hfwd]
  exact ⟨_, rfl, by simp [ArgState.add], by simp [ArgState.add], by simp [ArgState.add],
    by simp [ArgState.add], by simp [ArgState.add]⟩

theorem loop_operand (isreg : String → Bool) (a : String) (rest : List String) (st : ArgState)
    (hd : first_char_is a '-' = false) (hr : isreg a = true) :
    process_args_loop isreg (a :: rest) st =
      match st.input_file with
      | some _ => .failed
      | none => process_args_loop isreg rest { st.add a with input_file := some a } := by
  have hE : strncmp_eq a "-E" 2 = false := by
    cases h : strncmp_eq a "-E" 2
    · rfl
    · rw [first_char_of_strncmp a "-E" '-' 'E' rfl h] at hd; cases hd
  have hM : strncmp_eq a "-M" 2 = false := by
    cases h : strncmp_eq a "-M" 2
    · rfl
    · rw [first_char_of_strncmp a "-M" '-' 'M' rfl h] at hd; cases hd
  have hg : strncmp_eq a "-g" 2 = false := by
    cases h : strncmp_eq a "-g" 2
    · rfl
    · rw [first_char_of_strncmp a "-g" '-' 'g' rfl h] at hd; cases hd
  have hc : a ≠ "-c" := by rintro rfl; revert hd; decide
  have hS : a ≠ "-S" := by rintro rfl; revert hd; decide
  have htv : takes_value a = false := by
    cases h : takes_value a
    · rfl
    · rw [first_char_of_takes_value a h] at hd; cases hd
  simp [takes_value] at htv
  obtain ⟨⟨⟨⟨⟨h1, h2⟩, h3⟩, h4⟩, h5⟩, h6⟩ := htv
  rw [process_args_loop.eq_def]
  simp [hE, hM, hg, hc, hS, h1, h2, h3, h4, h5, h6, hd, hr]


theorem option_args_cons (a : String) (rest : List String) (h : takes_value a = false) :
    option_args (a :: rest) = a :: option_args rest := by
  cases rest with
  | nil => rfl
  | cons v r => simp [option_args, h]

theorem option_args_value (a v : String) (rest : List String) (h : takes_value a = true) :
    option_args (a :: v :: rest) = a :: option_args rest := by
  simp [option_args, h]

theorem without_o_cons (a : String) (rest : List String) (h : takes_value a = false) :
    without_o (a :: rest) = a :: without_o rest := by
  have ho : a ≠ "-o" := by rintro rfl; revert h; decide
  cases rest with
  | nil => rfl
  | cons v r => simp [without_o, h, ho]

theorem without_o_value (a v : String) (rest : List String) (h : takes_value a = true)
    (ho : a ≠ "-o") : without_o (a :: v :: rest) = a :: v :: without_o rest := by
  simp [without_o, h, ho]

theorem o_paths_cons (a : String) (rest : List String) (h : takes_value a = false) :
    o_paths (a :: rest) = o_paths rest := by
  have ho : a ≠ "-o" := by rintro rfl; revert h; decide
  cases rest with
  | nil => rfl
  | cons v r => simp [o_paths, h, ho]

theorem o_paths_value (a v : String) (rest : List String) (h : takes_value a = true)
    (ho : a ≠ "-o") : o_paths (a :: v :: rest) = o_paths rest := by
  simp [o_paths, h, ho]

theorem operands_cons_dash (isreg : String → Bool) (a : String) (l : List String)
    (h : first_char_is a '-' = true) :
    (a :: l).filter (fun a => !first_char_is a '-' && isreg a)
      = l.filter (fun a => !first_char_is a '-' && isreg a) := by
  simp [List.filter_cons, h]

theorem getLast_or_cons (v : String) (l : List String) (o : Option String) :
    ((v :: l).getLast?).or o = (l.getLast?).or (some v) := by
  rw [List.getLast?_cons]
  cases l.getLast? <;> simp [Option.or]

theorem loop_spec (isreg : String → Bool) :
    ∀ (n : Nat) (args : List String) (st st2 : ArgState), args.length ≤ n →
      process_args_loop isreg args st = .returned st2 → LoopSpec isreg args st st2 := by
  intro n
  induction n with
  | zero =>
    intro args st st2 hlen h
    have : args = [] := List.length_eq_zero.mp (Nat.le_zero.mp hlen)
    subst this
    simp [process_args_loop] at h
    subst h
    constructor <;> simp [without_o, o_paths, option_args, operands]
  | succ n ih =>
    intro args st st2 hlen h
    cases args with
    | nil =>
      simp [process_args_loop] at h
      subst h
      constructor <;> simp [without_o, o_paths, option_args, operands]
    | cons a rest =>
      cases hu : (strncmp_eq a "-E" 2 || strncmp_eq a "-M" 2) with
      | true => rw [loop_uncacheable isreg a rest st hu] at h; cases h
      | false =>
      cases htv : takes_value a with
      | true =>
        have hdash := first_char_of_takes_value a htv
        have hc : a ≠ "-c" := by rintro rfl; revert htv; decide
        have hS : a ≠ "-S" := by rintro rfl; revert htv; decide
        cases rest with
        | nil => rw [loop_value_last isreg a st htv] at h; cases h
        | cons v rest2 =>
          have hlen2 : rest2.length ≤ n := by simp at hlen; omega
          by_cases ho : a = "-o"
          · subst ho
            rw [loop_o] at h
            have sp := ih rest2 _ st2 hlen2 h
            constructor
            · rw [sp.stripped]; simp [without_o]
            · rw [sp.output]
              simp only [o_paths, if_true]
              rw [getLast_or_cons]
            · rw [sp.found_c, option_args_value _ _ _ htv]; simp
            · rw [sp.found_S, option_args_value _ _ _ htv]; simp
            · intro hi
              have := sp.input_none hi
              simpa [operands, option_args_value _ _ _ htv, operands_cons_dash isreg _ _ hdash]
                using this
            · intro f hi
              have := sp.input_some f hi
              simpa [operands, option_args_value _ _ _ htv, operands_cons_dash isreg _ _ hdash]
                using this
            · intro b hb
              rw [option_args_value _ _ _ htv] at hb
              rcases List.mem_cons.mp hb with hb | hb
              · subst hb; exact hu
              · exact sp.cacheable b hb
          · rw [loop_value isreg a v rest2 st htv ho] at h
            have sp := ih rest2 _ st2 hlen2 h
            constructor
            · rw [sp.stripped, without_o_value _ _ _ htv ho]; simp [ArgState.add]
            · rw [sp.output, o_paths_value _ _ _ htv ho]; simp [ArgState.add]
            · rw [sp.found_c, option_args_value _ _ _ htv]; simp [ArgState.add, Ne.symm hc]
            · rw [sp.found_S, option_args_value _ _ _ htv]; simp [ArgState.add, Ne.symm hS]
            · intro hi
              have := sp.input_none hi
              simpa [operands, option_args_value _ _ _ htv, operands_cons_dash isreg _ _ hdash]
                using this
            · intro f hi
              have := sp.input_some f hi
              simpa [operands, option_args_value _ _ _ htv, operands_cons_dash isreg _ _ hdash]
                using this
            · intro b hb
              rw [option_args_value _ _ _ htv] at hb
              rcases List.mem_cons.mp hb with hb | hb
              · subst hb; exact hu
              · exact sp.cacheable b hb
      | false =>
        have hlen2 : rest.length ≤ n := by simp at hlen; omega
        by_cases hf : first_char_is a '-' = true ∨ isreg a = false
        · obtain ⟨st1, e, h1, h2, h3, h4, h5⟩ := loop_forward isreg a rest st hu htv hf
          rw [e] at h
          have sp := ih rest st1 st2 hlen2 h
          have hfilt : (!first_char_is a '-' && isreg a) = false := by
            rcases hf with hf | hf <;> simp [hf]
          constructor
          · rw [sp.stripped, h1, without_o_cons _ _ htv]; simp
          · rw [sp.output, h2, o_paths_cons _ _ htv]
          · rw [sp.found_c, h4, option_args_cons _ _ htv]
            by_cases hc : a = "-c"
            · simp [hc]
            · simp [hc, Ne.symm hc]
          · rw [sp.found_S, h5, option_args_cons _ _ htv]
            by_cases hc : a = "-S"
            · simp [hc]
            · simp [hc, Ne.symm hc]
          · intro hi
            have := sp.input_none (h3.trans hi)
            simpa [operands, option_args_cons _ _ htv, List.filter_cons, hfilt] using this
          · intro f hi
            have := sp.input_some f (h3.trans hi)
            simpa [operands, option_args_cons _ _ htv, List.filter_cons, hfilt] using this
          · intro b hb
            rw [option_args_cons _ _ htv] at hb
            rcases List.mem_cons.mp hb with hb | hb
            · subst hb; exact hu
            · exact sp.cacheable b hb
        · have hd : first_char_is a '-' = false := by
            cases hh : first_char_is a '-'
            · rfl
            · exact absurd (Or.inl hh) hf
          have hr : isreg a = true := by
            cases hh : isreg a
            · exact absurd (Or.inr hh) hf
            · rfl
          have hc : a ≠ "-c" := by rintro rfl; revert hd; decide
          have hS : a ≠ "-S" := by rintro rfl; revert hd; decide
          rw [loop_operand isreg a rest st hd hr] at h
          have hfilt : (!first_char_is a '-' && isreg a) = true := by simp [hd, hr]
          cases hi : st.input_file with
          | some f => simp [hi] at h
          | none =>
            simp only [hi] at h
            have sp := ih rest _ st2 hlen2 h
            have hin := sp.input_some a rfl
            constructor
            · rw [sp.stripped, without_o_cons _ _ htv]; simp [ArgState.add]
            · rw [sp.output, o_paths_cons _ _ htv]; simp [ArgState.add]
            · rw [sp.found_c, option_args_cons _ _ htv]; simp [ArgState.add, Ne.symm hc]
            · rw [sp.found_S, option_args_cons _ _ htv]; simp [ArgState.add, Ne.symm hS]
            · intro _
              have e2 : operands isreg (a :: rest) = a :: operands isreg rest := by
                simp [operands, option_args_cons _ _ htv, List.filter_cons, hfilt]
              rw [e2, hin.2]
              exact ⟨by simp [hin.1], by simp⟩
            · intro f hf2
              rw [hi] at hf2; cases hf2
            · intro b hb
              rw [option_args_cons _ _ htv] at hb
              rcases List.mem_cons.mp hb with hb | hb
              · subst hb; exact hu
              · exact sp.cacheable b hb


theorem loop_returned_or_failed (isreg : String → Bool) :
    ∀ (n : Nat) (args : List String) (st : ArgState), args.length ≤ n →
      process_args_loop isreg args st = .failed ∨
        ∃ st2, process_args_loop isreg args st = .returned st2 := by
  intro n
  induction n with
  | zero =>
    intro args st hlen
    have : args = [] := List.length_eq_zero.mp (Nat.le_zero.mp hlen)
    subst this
    exact Or.inr ⟨st, rfl⟩
  | succ n ih =>
    intro args st hlen
    cases args with
    | nil => exact Or.inr ⟨st, rfl⟩
    | cons a rest =>
      cases hu : (strncmp_eq a "-E" 2 || strncmp_eq a "-M" 2) with
      | true => exact Or.inl (loop_uncacheable isreg a rest st hu)
      | false =>
      cases htv : takes_value a with
      | true =>
        cases rest with
        | nil => exact Or.inl (loop_value_last isreg a st htv)
        | cons v rest2 =>
          have hlen2 : rest2.length ≤ n := by simp at hlen; omega
          by_cases ho : a = "-o"
          · subst ho
            rw [loop_o]
            exact ih rest2 _ hlen2
          · rw [loop_value isreg a v rest2 st htv ho]
            exact ih rest2 _ hlen2
      | false =>
        have hlen2 : rest.length ≤ n := by simp at hlen; omega
        by_cases hf : first_char_is a '-' = true ∨ isreg a = false
        · obtain ⟨st1, e, _⟩ := loop_forward isreg a rest st hu htv hf
          rw [e]
          exact ih rest st1 hlen2
        · have hd : first_char_is a '-' = false := by
            cases hh : first_char_is a '-'
            · rfl
            · exact absurd (Or.inl hh) hf
          have hr : isreg a = true := by
            cases hh : isreg a
            · exact absurd (Or.inr hh) hf
            · rfl
          rw [loop_operand isreg a rest st hd hr]
          cases hi : st.input_file with
          | some f => exact Or.inl rfl
          | none => exact ih rest _ hlen2

theorem process_args_returned_or_failed (isreg : String → Bool) (argv0 : String)
    (args : List String) :
    process_args isreg argv0 args = .failed ∨
      ∃ st, process_args isreg argv0 args = .returned st := by
  unfold process_args
  rcases loop_returned_or_failed isreg args.length args (ArgState.init argv0) (le_refl _)
    with h | ⟨st0, h⟩
  · rw [h]; exact Or.inl rfl
  · rw [h]
    simp only
    cases st0.input_file with
    | none => exact Or.inl rfl
    | some input =>
      simp only
      cases st0.found_c_opt with
      | false => exact Or.inl rfl
      | true =>
        simp only [Bool.not_true, Bool.false_eq_true, if_false]
        cases st0.output_file with
        | some o => exact Or.inr ⟨_, rfl⟩
        | none =>
          simp only
          cases derive_output input st0.found_S_opt with
          | none => exact Or.inl rfl
          | some out => exact Or.inr ⟨_, rfl⟩

/-- What a normal return of `process_args` says about the scan. -/
theorem process_args_returned (isreg : String → Bool) (argv0 : String)
    (args : List String) (st : ArgState)
    (h : process_args isreg argv0 args = .returned st) :
    ∃ st0 input, process_args_loop isreg args (ArgState.init argv0) = .returned st0
      ∧ st0.input_file = some input ∧ st0.found_c_opt = true
      ∧ ((∃ o, st0.output_file = some o ∧ st = st0) ∨
         (∃ out, st0.output_file = none ∧ derive_output input st0.found_S_opt = some out
            ∧ st = { st0 with output_file := some out })) := by
  unfold process_args at h
  rcases loop_returned_or_failed isreg args.length args (ArgState.init argv0) (le_refl _)
    with h0 | ⟨st0, h0⟩
  · rw [h0] at h; cases h
  · rw [h0] at h
    simp only at h
    cases hi : st0.input_file with
    | none => rw [hi] at h; cases h
    | some input =>
      rw [hi] at h
      simp only at h
      cases hc : st0.found_c_opt with
      | false => rw [hc] at h; cases h
      | true =>
        rw [hc] at h
        simp only [Bool.not_true, Bool.false_eq_true, if_false] at h
        cases ho : st0.output_file with
        | some o =>
          rw [ho] at h
          simp only [Outcome.returned.injEq] at h
          exact ⟨st0, input, h0, hi, hc, Or.inl ⟨o, ho, h.symm⟩⟩
        | none =>
          rw [ho] at h
          simp only at h
          cases hd : derive_output input st0.found_S_opt with
          | none => rw [hd] at h; cases h
          | some out =>
            rw [hd] at h
            simp only [Outcome.returned.injEq] at h
            exact ⟨st0, input, h0, hi, hc, Or.inr ⟨out, ho, hd, by rw [hi, hc]; exact h.symm⟩⟩


theorem o_paths_nil_of_no_o :
    ∀ (n : Nat) (args : List String), args.length ≤ n → "-o" ∉ option_args args →
      o_paths args = [] := by
  intro n
  induction n with
  | zero =>
    intro args hlen _
    have : args = [] := List.length_eq_zero.mp (Nat.le_zero.mp hlen)
    subst this; rfl
  | succ n ih =>
    intro args hlen hno
    cases args with
    | nil => rfl
    | cons a rest =>
      cases htv : takes_value a with
      | false =>
        rw [option_args_cons _ _ htv] at hno
        rw [o_paths_cons _ _ htv]
        exact ih rest (by simp at hlen; omega) (fun hm => hno (List.mem_cons_of_mem _ hm))
      | true =>
        cases rest with
        | nil => rfl
        | cons v rest2 =>
          rw [option_args_value _ _ _ htv] at hno
          have ho : a ≠ "-o" := fun e => hno (by rw [e]; exact List.mem_cons_self _ _)
          rw [o_paths_value _ _ _ htv ho]
          exact ih rest2 (by simp at hlen; omega) (fun hm => hno (List.mem_cons_of_mem _ hm))

theorem strrchr_eq_none (c : Char) : ∀ s : List Char, strrchr s c = none ↔ c ∉ s := by
  intro s
  induction s with
  | nil => simp [strrchr]
  | cons x xs ih =>
    unfold strrchr
    cases h : strrchr xs c with
    | some i =>
      have : c ∈ xs := by
        by_contra hn
        rw [ih.mpr hn] at h; cases h
      simp [this]
    | none =>
      have hn := ih.mp h
      by_cases hx : x = c
      · simp [hx]
      · simp [hx, hn, Ne.symm hx]

theorem strrchr_eq_some (c : Char) :
    ∀ (s : List Char) (i : Nat), strrchr s c = some i →
      ∃ pre suf, s = pre ++ c :: suf ∧ c ∉ suf ∧ pre.length = i := by
  intro s
  induction s with
  | nil => intro i h; simp [strrchr] at h
  | cons x xs ih =>
    intro i h
    unfold strrchr at h
    cases h2 : strrchr xs c with
    | some j =>
      rw [h2] at h
      simp only [Option.some.injEq] at h
      obtain ⟨pre, suf, e, hn, hl⟩ := ih j h2
      exact ⟨x :: pre, suf, by rw [e]; rfl, hn, by simp [hl, h]⟩
    | none =>
      rw [h2] at h
      by_cases hx : x = c
      · simp [hx] at h
        exact ⟨[], xs, by simp [hx], (strrchr_eq_none c xs).mp h2, by simp [h]⟩
      · simp [hx] at h

theorem split_last_unique (c : Char) (p1 s1 p2 s2 : List Char)
    (h : p1 ++ c :: s1 = p2 ++ c :: s2) (h1 : c ∉ s1) (h2 : c ∉ s2) :
    p1 = p2 ∧ s1 = s2 := by
  rw [List.append_eq_append_iff] at h
  rcases h with ⟨a, e1, e2⟩ | ⟨a, e1, e2⟩
  · cases a with
    | nil => simp at e1 e2; exact ⟨e1.symm, e2⟩
    | cons x a2 =>
      simp at e2
      exact absurd (by rw [e2.2]; simp) h1
  · cases a with
    | nil => simp at e1 e2; exact ⟨e1, e2.symm⟩
    | cons x a2 =>
      simp at e2
      exact absurd (by rw [e2.2]; simp) h2

theorem skip_directories_spec (buf : List Char) :
    ∃ dir, buf = dir ++ skip_directories buf ∧ (dir = [] ∨ dir.getLast? = some '/')
      ∧ '/' ∉ skip_directories buf := by
  unfold skip_directories
  cases h : strrchr buf '/' with
  | none => exact ⟨[], by simp, Or.inl rfl, (strrchr_eq_none _ _).mp h⟩
  | some p =>
    obtain ⟨pre, suf, e, hn, hl⟩ := strrchr_eq_some _ _ _ h
    have hd : buf.drop (p + 1) = suf := by
      rw [e, ← hl]
      have : pre ++ '/' :: suf = (pre ++ ['/']) ++ suf := by simp
      rw [this, List.drop_append_of_le_length (by simp)]
      simp
    simp only [hd]
    exact ⟨pre ++ ['/'], by rw [e]; simp, Or.inr (by simp), hn⟩

theorem skip_directories_unique (buf dir comp : List Char) (e : buf = dir ++ comp)
    (hdir : dir = [] ∨ dir.getLast? = some '/') (hcomp : '/' ∉ comp) :
    skip_directories buf = comp := by
  obtain ⟨dir2, e2, hdir2, hn2⟩ := skip_directories_spec buf
  generalize skip_directories buf = out at *
  rcases hdir with hdir | hdir
  · subst hdir
    simp at e
    subst e
    rcases hdir2 with hd2 | hd2
    · subst hd2; simpa using e2.symm
    · obtain ⟨ys, hy⟩ := List.getLast?_eq_some_iff.mp hd2
      exfalso; apply hcomp; rw [e2, hy]; simp
  · obtain ⟨ys, hy⟩ := List.getLast?_eq_some_iff.mp hdir
    rcases hdir2 with hd2 | hd2
    · subst hd2
      simp at e2
      exfalso; apply hn2; rw [← e2, e, hy]; simp
    · obtain ⟨ys2, hy2⟩ := List.getLast?_eq_some_iff.mp hd2
      have : ys2 ++ '/' :: out = ys ++ '/' :: comp := by
        have := e2.symm.trans e
        rw [hy, hy2] at this
        simpa using this
      exact (split_last_unique '/' _ _ _ _ this hn2 hcomp).2

theorem replace_extension_some (out : List Char) (letter : Char) (r : List Char)
    (h : replace_extension out letter = some r) :
    ∃ stem ext, out = stem ++ '.' :: ext ∧ '.' ∉ ext ∧ ext ≠ [] ∧ r = stem ++ ['.', letter] := by
  unfold replace_extension at h
  cases hp : strrchr out '.' with
  | none => rw [hp] at h; cases h
  | some p =>
    rw [hp] at h
    simp only at h
    obtain ⟨pre, suf, e, hn, hl⟩ := strrchr_eq_some _ _ _ hp
    have e2 : out = (pre ++ ['.']) ++ suf := by rw [e]; simp
    have hlen : (pre ++ ['.']).length = p + 1 := by simp [hl]
    cases suf with
    | nil =>
      have : out.get? (p + 1) = none := by
        rw [e2]; simp [hl]
      rw [this] at h
      cases h
    | cons y ys =>
      have : out.get? (p + 1) = some y := by
        rw [e2, ← hlen, List.get?_eq_getElem?, List.getElem?_append_right (le_refl _)]
        simp
      rw [this] at h
      simp only [Option.some.injEq] at h
      refine ⟨pre, y :: ys, e, hn, by simp, ?_⟩
      rw [← h, e2, ← hlen, List.take_left]
      simp

theorem replace_extension_none (out : List Char) (letter : Char)
    (h : '.' ∉ out ∨ out.getLast? = some '.') :
    replace_extension out letter = none := by
  cases hr : replace_extension out letter with
  | none => rfl
  | some r =>
    exfalso
    obtain ⟨stem, ext, e, hn, hne, _⟩ := replace_extension_some out letter r hr
    rcases h with h | h
    · apply h; rw [e]; simp
    · obtain ⟨ys, hy⟩ := List.getLast?_eq_some_iff.mp h
      obtain ⟨zs, hz⟩ : ∃ zs, ext = zs ++ [ext.getLast hne] :=
        ⟨ext.dropLast, (List.dropLast_append_getLast hne).symm⟩
      have e3 : ys ++ ['.'] = (stem ++ '.' :: zs) ++ [ext.getLast hne] := by
        rw [← hy, e]
        conv_lhs => rw [hz]
        simp
      have := List.append_inj_right' e3 rfl
      simp at this
      apply hn
      rw [this]
      exact List.getLast_mem hne


/-- C3, as stated, fails: in `cc -c a.c -o -E` the argument `-E` stands after
slot 0, and `process_args` returns normally with `output_file = "-E"`, because
the argument after `-o` is taken as the output path and never tested. -/
theorem process_args_returns_with_E_as_output_path :
    "-E" ∈ ["-c", "a.c", "-o", "-E"] ∧
    process_args (fun p => p = "a.c") "cc" ["-c", "a.c", "-o", "-E"]
      = .returned { stripped_args := ["cc", "-c", "a.c"], found_c_opt := true,
                    found_S_opt := false, input_file := some "a.c",
                    output_file := some "-E", found_debug := false } := by
  decide

/-- C3 (amended): for every command line in which some argument in option
position (after slot 0 and not the value consumed by a preceding `-o`, `-I`,
`-include`, `-L`, `-D` or `-isystem`) is `-E` or begins with `-M`,
`process_args` does not return: it ends in `failed()`. -/
theorem process_args_uncacheable_option_fails (isreg : String → Bool) (argv0 : String)
    (args : List String) (a : String) (ha : a ∈ option_args args)
    (hu : a = "-E" ∨ strncmp_eq a "-M" 2 = true) :
    process_args isreg argv0 args = .failed := by
  rcases process_args_returned_or_failed isreg argv0 args with h | ⟨st, h⟩
  · exact h
  · exfalso
    obtain ⟨st0, input, h0, _⟩ := process_args_returned isreg argv0 args st h
    have sp := loop_spec isreg args.length args _ st0 (le_refl _) h0
    have hc := sp.cacheable a ha
    rcases hu with hu | hu
    · subst hu; revert hc; decide
    · simp [hu] at hc

theorem process_args_uncacheable_option_fails_witness :
    "-MD" ∈ option_args ["-c", "-MD", "a.c"] ∧
    ("-MD" = "-E" ∨ strncmp_eq "-MD" "-M" 2 = true) ∧
    process_args (fun p => p = "a.c") "cc" ["-c", "-MD", "a.c"] = .failed :=
  ⟨by decide, by decide,
    process_args_uncacheable_option_fails _ "cc" ["-c", "-MD", "a.c"] "-MD"
      (by decide) (by decide)⟩

/-- C4: when `process_args` returns normally, the stripped argv is the
original argv with each `-o` in option position and the path following it
removed, nothing else removed, added or reordered; and when such a `-o` is
present, `output_file` is the path that follows the last one. -/
theorem process_args_strips_only_o (isreg : String → Bool) (argv0 : String)
    (args : List String) (st : ArgState)
    (h : process_args isreg argv0 args = .returned st) :
    st.stripped_args = argv0 :: without_o args ∧
    ∀ p, (o_paths args).getLast? = some p → st.output_file = some p := by
  obtain ⟨st0, input, h0, _, _, hout⟩ := process_args_returned isreg argv0 args st h
  have sp := loop_spec isreg args.length args _ st0 (le_refl _) h0
  have hs : st0.stripped_args = argv0 :: without_o args := by
    rw [sp.stripped]; rfl
  rcases hout with ⟨o, _, e⟩ | ⟨out, hnone, _, e⟩
  · subst e
    refine ⟨hs, ?_⟩
    intro p hp
    rw [sp.output, hp]; rfl
  · subst e
    refine ⟨hs, ?_⟩
    intro p hp
    rw [sp.output, hp] at hnone
    cases hnone

theorem process_args_strips_only_o_witness :
    process_args (fun p => p = "a.c") "cc" ["-o", "x.o", "-I", "-o", "-c", "a.c", "-o", "y.o"]
      = .returned { stripped_args := ["cc", "-I", "-o", "-c", "a.c"], found_c_opt := true,
                    found_S_opt := false, input_file := some "a.c",
                    output_file := some "y.o", found_debug := false } ∧
    (["cc", "-I", "-o", "-c", "a.c"]
        = "cc" :: without_o ["-o", "x.o", "-I", "-o", "-c", "a.c", "-o", "y.o"] ∧
      ∀ p, (o_paths ["-o", "x.o", "-I", "-o", "-c", "a.c", "-o", "y.o"]).getLast? = some p →
        (some "y.o" : Option String) = some p) :=
  ⟨by decide,
    process_args_strips_only_o (fun p => p = "a.c") "cc"
      ["-o", "x.o", "-I", "-o", "-c", "a.c", "-o", "y.o"]
      { stripped_args := ["cc", "-I", "-o", "-c", "a.c"], found_c_opt := true,
        found_S_opt := false, input_file := some "a.c",
        output_file := some "y.o", found_debug := false } (by decide)⟩

/-- C9: `process_args` returns normally only if `-c` is present (as an
option) and exactly one argument in operand position names an existing regular
file, which is then `input_file`; with zero or with two or more such operands,
or without `-c`, it ends in `failed()`. -/
theorem process_args_needs_c_and_one_input (isreg : String → Bool) (argv0 : String)
    (args : List String) :
    (∀ st, process_args isreg argv0 args = .returned st →
      "-c" ∈ option_args args ∧ "-c" ∈ args ∧
        ∃ f, operands isreg args = [f] ∧ st.input_file = some f) ∧
    ((operands isreg args).length ≠ 1 ∨ "-c" ∉ option_args args ∨ "-c" ∉ args →
      process_args isreg argv0 args = .failed) := by
  have key : ∀ st, process_args isreg argv0 args = .returned st →
      "-c" ∈ option_args args ∧ ∃ f, operands isreg args = [f] ∧ st.input_file = some f := by
    intro st h
    obtain ⟨st0, input, h0, hin, hc, hout⟩ := process_args_returned isreg argv0 args st h
    have sp := loop_spec isreg args.length args _ st0 (le_refl _) h0
    have hfc := sp.found_c
    rw [hc] at hfc
    have hcm : "-c" ∈ option_args args := by
      simpa [ArgState.init] using hfc.symm
    obtain ⟨hhead, hlen⟩ := sp.input_none rfl
    rw [hin] at hhead
    have hops : operands isreg args = [input] := by
      cases hop : operands isreg args with
      | nil => rw [hop] at hhead; cases hhead
      | cons x xs =>
        rw [hop] at hhead hlen
        simp at hhead hlen
        subst hlen
        rw [hhead]
    have hst : st.input_file = some input := by
      rcases hout with ⟨o, _, e⟩ | ⟨out, _, _, e⟩ <;> subst e <;> exact hin
    exact ⟨hcm, input, hops, hst⟩
  have hsub : ∀ (n : Nat) (l : List String), l.length ≤ n → ∀ x ∈ option_args l, x ∈ l := by
    intro n
    induction n with
    | zero =>
      intro l hl x hx
      have : l = [] := List.length_eq_zero.mp (Nat.le_zero.mp hl)
      subst this; simp [option_args] at hx
    | succ n ih =>
      intro l hl x hx
      cases l with
      | nil => simp [option_args] at hx
      | cons a rest =>
        cases htv : takes_value a with
        | false =>
          rw [option_args_cons _ _ htv] at hx
          rcases List.mem_cons.mp hx with hx | hx
          · rw [hx]; exact List.mem_cons_self _ _
          · exact List.mem_cons_of_mem _ (ih rest (by simp at hl; omega) x hx)
        | true =>
          cases rest with
          | nil => simpa [option_args] using hx
          | cons v rest2 =>
            rw [option_args_value _ _ _ htv] at hx
            rcases List.mem_cons.mp hx with hx | hx
            · rw [hx]; exact List.mem_cons_self _ _
            · exact List.mem_cons_of_mem _ (List.mem_cons_of_mem _
                (ih rest2 (by simp at hl; omega) x hx))
  refine ⟨fun st h => ?_, fun hbad => ?_⟩
  · obtain ⟨hc, f, hf⟩ := key st h
    exact ⟨hc, hsub _ args (le_refl _) _ hc, f, hf⟩
  · rcases process_args_returned_or_failed isreg argv0 args with h | ⟨st, h⟩
    · exact h
    · exfalso
      obtain ⟨hc, f, hops, _⟩ := key st h
      rcases hbad with hb | hb | hb
      · apply hb; rw [hops]; rfl
      · exact hb hc
      · exact hb (hsub _ args (le_refl _) _ hc)

theorem process_args_needs_c_and_one_input_witness :
    ((operands (fun p => p = "a.c" || p = "b.c") ["-c", "a.c", "b.c"]).length ≠ 1 ∨
      "-c" ∉ option_args ["-c", "a.c", "b.c"] ∨ "-c" ∉ ["-c", "a.c", "b.c"]) ∧
    process_args (fun p => p = "a.c" || p = "b.c") "cc" ["-c", "a.c", "b.c"] = .failed :=
  ⟨by decide,
    (process_args_needs_c_and_one_input (fun p => p = "a.c" || p = "b.c") "cc"
      ["-c", "a.c", "b.c"]).2 (by decide)⟩


theorem input_is_the_operand (isreg : String → Bool) (argv0 : String) (args : List String)
    (st0 : ArgState) (input : String)
    (h0 : process_args_loop isreg args (ArgState.init argv0) = .returned st0)
    (hin : st0.input_file = some input) : operands isreg args = [input] := by
  have sp := loop_spec isreg args.length args _ st0 (le_refl _) h0
  obtain ⟨hhead, hlen⟩ := sp.input_none rfl
  rw [hin] at hhead
  cases hop : operands isreg args with
  | nil => rw [hop] at hhead; cases hhead
  | cons x xs =>
    rw [hop] at hhead hlen
    simp at hhead hlen
    subst hlen
    rw [hhead]

theorem flag_without_value_cons (a : String) (rest : List String) (h : takes_value a = false) :
    flag_without_value (a :: rest) = flag_without_value rest := by
  cases rest with
  | nil => simp [flag_without_value, h]
  | cons v r => simp [flag_without_value, h]

theorem flag_without_value_value (a v : String) (rest : List String)
    (h : takes_value a = true) :
    flag_without_value (a :: v :: rest) = flag_without_value rest := by
  simp [flag_without_value, h]

/-- The scan returns whenever nothing makes it call `failed()`: no argument in
option position begins with `-E` or `-M`, no flag lacks its value, and the
operands are at most one (none when `input_file` is already set). -/
theorem loop_returns (isreg : String → Bool) :
    ∀ (n : Nat) (args : List String) (st : ArgState), args.length ≤ n →
      (∀ a ∈ option_args args, (strncmp_eq a "-E" 2 || strncmp_eq a "-M" 2) = false) →
      flag_without_value args = false →
      (st.input_file = none → (operands isreg args).length ≤ 1) →
      (st.input_file ≠ none → operands isreg args = []) →
      ∃ st2, process_args_loop isreg args st = .returned st2 := by
  intro n
  induction n with
  | zero =>
    intro args st hlen _ _ _ _
    have : args = [] := List.length_eq_zero.mp (Nat.le_zero.mp hlen)
    subst this
    exact ⟨st, rfl⟩
  | succ n ih =>
    intro args st hlen hE hV hn hs
    cases args with
    | nil => exact ⟨st, rfl⟩
    | cons a rest =>
      cases htv : takes_value a with
      | true =>
        have hdash := first_char_of_takes_value a htv
        cases rest with
        | nil => simp [flag_without_value, htv] at hV
        | cons v rest2 =>
          have hlen2 : rest2.length ≤ n := by simp at hlen; omega
          rw [option_args_value _ _ _ htv] at hE
          rw [flag_without_value_value _ _ _ htv] at hV
          have hops : operands isreg (a :: v :: rest2) = operands isreg rest2 := by
            simp [operands, option_args_value _ _ _ htv, operands_cons_dash isreg _ _ hdash]
          rw [hops] at hn hs
          have hE2 : ∀ b ∈ option_args rest2,
              (strncmp_eq b "-E" 2 || strncmp_eq b "-M" 2) = false :=
            fun b hb => hE b (List.mem_cons_of_mem _ hb)
          by_cases ho : a = "-o"
          · subst ho
            rw [loop_o]
            exact ih rest2 _ hlen2 hE2 hV hn hs
          · rw [loop_value isreg a v rest2 st htv ho]
            exact ih rest2 _ hlen2 hE2 hV hn hs
      | false =>
        have hlen2 : rest.length ≤ n := by simp at hlen; omega
        rw [option_args_cons _ _ htv] at hE
        rw [flag_without_value_cons _ _ htv] at hV
        have hu := hE a (List.mem_cons_self _ _)
        have hE2 : ∀ b ∈ option_args rest,
            (strncmp_eq b "-E" 2 || strncmp_eq b "-M" 2) = false :=
          fun b hb => hE b (List.mem_cons_of_mem _ hb)
        by_cases hf : first_char_is a '-' = true ∨ isreg a = false
        · obtain ⟨st1, e, _, _, h3, _, _⟩ := loop_forward isreg a rest st hu htv hf
          have hfilt : (!first_char_is a '-' && isreg a) = false := by
            rcases hf with hf | hf <;> simp [hf]
          have hops : operands isreg (a :: rest) = operands isreg rest := by
            simp [operands, option_args_cons _ _ htv, List.filter_cons, hfilt]
          rw [hops] at hn hs
          rw [e]
          exact ih rest st1 hlen2 hE2 hV (fun h => hn (h3 ▸ h)) (fun h => hs (h3 ▸ h))
        · have hd : first_char_is a '-' = false := by
            cases hh : first_char_is a '-'
            · rfl
            · exact absurd (Or.inl hh) hf
          have hr : isreg a = true := by
            cases hh : isreg a
            · exact absurd (Or.inr hh) hf
            · rfl
          have hfilt : (!first_char_is a '-' && isreg a) = true := by simp [hd, hr]
          have hops : operands isreg (a :: rest) = a :: operands isreg rest := by
            simp [operands, option_args_cons _ _ htv, List.filter_cons, hfilt]
          rw [hops] at hn hs
          rw [loop_operand isreg a rest st hd hr]
          cases hi : st.input_file with
          | some f => exact absurd (hs (by rw [hi]; simp)) (by simp)
          | none =>
            simp only
            have hnil : operands isreg rest = [] := by
              have := hn hi
              simp at this
              exact this
            exact ih rest _ hlen2 hE2 hV (fun h => by simp at h) (fun _ => hnil)

theorem strrchr_append_cons (c : Char) (suf : List Char) (hn : c ∉ suf) :
    ∀ pre : List Char, strrchr (pre ++ c :: suf) c = some pre.length := by
  intro pre
  induction pre with
  | nil =>
    have : strrchr suf c = none := (strrchr_eq_none c suf).mpr hn
    simp [strrchr, this]
  | cons x xs ih =>
    have e : (x :: xs) ++ c :: suf = x :: (xs ++ c :: suf) := rfl
    rw [e]
    unfold strrchr
    rw [ih]
    rfl

theorem replace_extension_of_split (stem ext : List Char) (letter : Char)
    (hn : '.' ∉ ext) (hne : ext ≠ []) :
    replace_extension (stem ++ '.' :: ext) letter = some (stem ++ ['.', letter]) := by
  unfold replace_extension
  rw [strrchr_append_cons '.' ext hn stem]
  simp only
  cases ext with
  | nil => exact absurd rfl hne
  | cons y ys =>
    have e2 : stem ++ '.' :: y :: ys = (stem ++ ['.']) ++ y :: ys := by simp
    have hlen : (stem ++ ['.']).length = stem.length + 1 := by simp
    have hget : (stem ++ '.' :: y :: ys).get? (stem.length + 1) = some y := by
      rw [e2, ← hlen, List.get?_eq_getElem?, List.getElem?_append_right (le_refl _)]
      simp
    rw [hget]
    simp only
    rw [e2, ← hlen, List.take_left]
    simp

/-- C5: on a command line without `-o` (none in option position),
(1) when `process_args` returns normally, `input_file` is the one operand,
it splits as directories, stem, `'.'` and a non-empty extension without
`'.'`, and `output_file` is the stem, the `'.'` and the single letter `s`
when `-S` is present as an option, `o` otherwise, with no `'/'` in it;
(2) when the final path component of the one operand has no `'.'` or ends in
`'.'`, `process_args` ends in `failed()`;
(3) when classification succeeds (no argument in option position begins with
`-E` or `-M`, no flag lacks its value, `-c` is present, there is exactly one
operand) and the final path component of the operand is a stem, a `'.'` and a
non-empty extension without `'.'`, `process_args` does return normally, with
`input_file` the operand and `output_file` the stem, the `'.'` and the
letter: `path/to/foo.c` gives `foo.o`, with `-S` it gives `foo.s`. -/
theorem process_args_derives_output (isreg : String → Bool) (argv0 : String)
    (args : List String) (hno : "-o" ∉ option_args args) :
    (∀ st, process_args isreg argv0 args = .returned st →
      ∃ input dir stem ext out,
        operands isreg args = [input] ∧ st.input_file = some input ∧
        input.data = dir ++ (stem ++ '.' :: ext) ∧
        (dir = [] ∨ dir.getLast? = some '/') ∧
        '/' ∉ stem ++ '.' :: ext ∧ '.' ∉ ext ∧ ext ≠ [] ∧
        st.output_file = some out ∧
        out.data = stem ++ ['.', if "-S" ∈ option_args args then 's' else 'o'] ∧
        '/' ∉ out.data) ∧
    (∀ input dir comp, operands isreg args = [input] → input.data = dir ++ comp →
        (dir = [] ∨ dir.getLast? = some '/') → '/' ∉ comp →
        ('.' ∉ comp ∨ comp.getLast? = some '.') →
        process_args isreg argv0 args = .failed) ∧
    (∀ input dir stem ext,
        (∀ a ∈ option_args args, (strncmp_eq a "-E" 2 || strncmp_eq a "-M" 2) = false) →
        flag_without_value args = false →
        "-c" ∈ option_args args →
        operands isreg args = [input] →
        input.data = dir ++ (stem ++ '.' :: ext) →
        (dir = [] ∨ dir.getLast? = some '/') →
        '/' ∉ stem ++ '.' :: ext → '.' ∉ ext → ext ≠ [] →
        ∃ st, process_args isreg argv0 args = .returned st ∧
          st.input_file = some input ∧
          st.stripped_args = argv0 :: args ∧
          st.output_file = some (String.mk
            (stem ++ ['.', if "-S" ∈ option_args args then 's' else 'o']))) := by
  have hop := o_paths_nil_of_no_o args.length args (le_refl _) hno
  have key : ∀ st, process_args isreg argv0 args = .returned st →
      ∃ (st0 : ArgState) (input : String) (r : List Char),
        operands isreg args = [input] ∧ st0.input_file = some input ∧
        replace_extension (skip_directories input.data)
          (if "-S" ∈ option_args args then 's' else 'o') = some r ∧
        st = { st0 with output_file := some (String.mk r) } := by
    intro st h
    obtain ⟨st0, input, h0, hin, _, hout⟩ := process_args_returned isreg argv0 args st h
    have sp := loop_spec isreg args.length args _ st0 (le_refl _) h0
    have hnone : st0.output_file = none := by
      rw [sp.output, hop]; rfl
    have hS : st0.found_S_opt = decide ("-S" ∈ option_args args) := by
      rw [sp.found_S]; simp [ArgState.init]
    rcases hout with ⟨o, ho, _⟩ | ⟨out, _, hd, e⟩
    · rw [hnone] at ho; cases ho
    · unfold derive_output at hd
      rw [hS] at hd
      simp only [decide_eq_true_eq, Option.map_eq_some'] at hd
      obtain ⟨r, hr, hro⟩ := hd
      exact ⟨st0, input, r, input_is_the_operand isreg argv0 args st0 input h0 hin, hin, hr,
        by rw [e, hro]⟩
  refine ⟨fun st h => ?_, fun input dir comp hops hsplit hdir hcomp hbad => ?_,
    fun input dir stem ext hE hV hc hops hsplit hdir hcomp hext hne => ?_⟩
  · obtain ⟨st0, input, r, hops, hin, hr, e⟩ := key st h
    obtain ⟨dir, hd1, hd2, hd3⟩ := skip_directories_spec input.data
    obtain ⟨stem, ext, e1, e2, e3, e4⟩ := replace_extension_some _ _ _ hr
    rw [e1] at hd1 hd3
    refine ⟨input, dir, stem, ext, String.mk r, hops, ?_, hd1, hd2, hd3, e2, e3, ?_, ?_, ?_⟩
    · rw [e]; exact hin
    · rw [e]
    · exact e4
    · show '/' ∉ r
      rw [e4]
      intro hm
      simp only [List.mem_append, List.mem_cons, List.mem_singleton] at hm
      rcases hm with hm | hm | hm
      · exact hd3 (by simp [hm])
      · revert hm; decide
      · revert hm; split <;> decide
  · rcases process_args_returned_or_failed isreg argv0 args with h | ⟨st, h⟩
    · exact h
    · exfalso
      obtain ⟨st0, input2, r, hops2, _, hr, _⟩ := key st h
      rw [hops] at hops2
      simp only [List.cons.injEq, and_true] at hops2
      subst hops2
      rw [skip_directories_unique input.data dir comp hsplit hdir hcomp,
        replace_extension_none comp _ hbad] at hr
      cases hr
  · obtain ⟨st0, h0⟩ := loop_returns isreg args.length args (ArgState.init argv0) (le_refl _)
      hE hV (fun _ => by rw [hops]; simp) (fun h => absurd rfl h)
    have sp := loop_spec isreg args.length args _ st0 (le_refl _) h0
    have hin : st0.input_file = some input := by
      rw [(sp.input_none rfl).1, hops]; rfl
    have hfc : st0.found_c_opt = true := by
      rw [sp.found_c]; simp [hc]
    have hnone : st0.output_file = none := by
      rw [sp.output, hop]; rfl
    have hS : st0.found_S_opt = decide ("-S" ∈ option_args args) := by
      rw [sp.found_S]; simp [ArgState.init]
    have hstrip : st0.stripped_args = argv0 :: args := by
      rw [sp.stripped]
      have hw : ∀ (n : Nat) (l : List String), l.length ≤ n → "-o" ∉ option_args l →
          without_o l = l := by
        intro n
        induction n with
        | zero =>
          intro l hl _
          have : l = [] := List.length_eq_zero.mp (Nat.le_zero.mp hl)
          subst this; rfl
        | succ n ih =>
          intro l hl hno2
          cases l with
          | nil => rfl
          | cons a rest =>
            cases htv : takes_value a with
            | false =>
              rw [option_args_cons _ _ htv] at hno2
              rw [without_o_cons _ _ htv,
                ih rest (by simp at hl; omega) (fun hm => hno2 (List.mem_cons_of_mem _ hm))]
            | true =>
              cases rest with
              | nil => rfl
              | cons v rest2 =>
                rw [option_args_value _ _ _ htv] at hno2
                have ho : a ≠ "-o" := fun e => hno2 (by rw [e]; exact List.mem_cons_self _ _)
                rw [without_o_value _ _ _ htv ho,
                  ih rest2 (by simp at hl; omega)
                    (fun hm => hno2 (List.mem_cons_of_mem _ hm))]
      rw [hw args.length args (le_refl _) hno]
      rfl
    have hder : derive_output input st0.found_S_opt
        = some (String.mk (stem ++ ['.', if "-S" ∈ option_args args then 's' else 'o'])) := by
      unfold derive_output
      rw [skip_directories_unique input.data dir (stem ++ '.' :: ext) hsplit hdir hcomp,
        replace_extension_of_split stem ext _ hext hne, hS]
      simp
    refine ⟨{ st0 with output_file := some (String.mk
      (stem ++ ['.', if "-S" ∈ option_args args then 's' else 'o'])) }, ?_, hin, hstrip, rfl⟩
    unfold process_args
    rw [h0]
    simp only [hin, hfc, hnone, hder, Bool.not_true, Bool.false_eq_true, if_false]

theorem process_args_derives_output_witness :
    "-o" ∉ option_args ["-c", "path/to/foo.c"] ∧
    (∃ st, process_args (fun p => p = "path/to/foo.c") "cc" ["-c", "path/to/foo.c"]
        = .returned st ∧
      st.input_file = some "path/to/foo.c" ∧
      st.stripped_args = "cc" :: ["-c", "path/to/foo.c"] ∧
      st.output_file = some (String.mk ("foo".data ++
        ['.', if "-S" ∈ option_args ["-c", "path/to/foo.c"] then 's' else 'o']))) ∧
    (∃ st, process_args (fun p => p = "path/to/foo.c") "cc" ["-S", "-c", "path/to/foo.c"]
        = .returned st ∧
      st.input_file = some "path/to/foo.c" ∧
      st.stripped_args = "cc" :: ["-S", "-c", "path/to/foo.c"] ∧
      st.output_file = some (String.mk ("foo".data ++
        ['.', if "-S" ∈ option_args ["-S", "-c", "path/to/foo.c"] then 's' else 'o']))) :=
  ⟨by decide,
    (process_args_derives_output (fun p => p = "path/to/foo.c") "cc"
      ["-c", "path/to/foo.c"] (by decide)).2.2 "path/to/foo.c" "path/to/".data "foo".data
      "c".data (by decide) (by decide) (by decide) (by decide) (by decide) (by decide)
      (by decide) (by decide) (by decide),
    (process_args_derives_output (fun p => p = "path/to/foo.c") "cc"
      ["-S", "-c", "path/to/foo.c"] (by decide)).2.2 "path/to/foo.c" "path/to/".data
      "foo".data "c".data (by decide) (by decide) (by decide) (by decide) (by decide)
      (by decide) (by decide) (by decide) (by decide)⟩

/-! ## `find_hash` and `stabs_hash` -/

/-- C2 (failing input): for the stripped argv `cc -c a.c -DFOO`, `find_hash`
hands the last token `-DFOO` to `hash_string` although it begins with `-D`;
the selection of the specification leaves it out. -/
theorem find_hash_hashes_attached_form_in_last_position :
    find_hash_args ["cc", "-c", "a.c", "-DFOO"] = ["cc", "-c", "a.c", "-DFOO"] ∧
    is_attached_form "-DFOO" = true ∧
    spec_hash_args ["cc", "-c", "a.c", "-DFOO"] = ["cc", "-c", "a.c"] := by
  decide

/-- C10 (failing input): for the one-byte file `a`, whose only line has no
newline, `stabs_hash` calls `hash_buffer(&map[0], 2)`: offset plus length is
2, one more than the size of the mapped file. -/
theorem stabs_hash_call_exceeds_file_without_final_newline :
    stabs_hash_calls [97] = .done [(0, 2)] ∧
    stabs_hash (some [97]) true = .returned [(0, 2)] ∧
    ¬ (0 + 2 ≤ [97].length) := by
  decide

/-- C1 (failing input): for the file `int` (three bytes, no newline)
`stabs_hash` makes the one call `hash_buffer(&map[0], 4)`; the bytes it hands
over are the three bytes of the file followed by the byte that lies behind the
file, whatever it is; the input with its directive lines removed is the three
bytes alone. -/
theorem stabs_hash_hashes_one_byte_behind_the_file :
    stabs_hash_calls [105, 110, 116] = .done [(0, 4)] ∧
    stabs_hash (some [105, 110, 116]) true = .returned [(0, 4)] ∧
    (∀ beyond : Nat → Nat,
      hashed_bytes (mapped_memory [105, 110, 116] beyond) [(0, 4)]
        = [105, 110, 116, beyond 0]) ∧
    strip_directives [105, 110, 116] = [105, 110, 116] := by
  refine ⟨by decide, by decide, fun beyond => rfl, by decide⟩

/-- Apart from the last argument the loop of `find_hash` selects what the
specification says: either the two selections agree, or the last argument is a
separated flag or an attached form and `find_hash` hashes it in addition. -/
theorem find_hash_args_differs_only_at_last :
    ∀ (n : Nat) (args : List String), args.length ≤ n →
      find_hash_args args = spec_hash_args args ∨
      ∃ z, args.getLast? = some z ∧ (is_separated_flag z || is_attached_form z) = true ∧
        find_hash_args args = spec_hash_args args ++ [z] := by
  intro n
  induction n with
  | zero =>
    intro args hlen
    have : args = [] := List.length_eq_zero.mp (Nat.le_zero.mp hlen)
    subst this
    exact Or.inl rfl
  | succ n ih =>
    intro args hlen
    match args, hlen with
    | [], _ => exact Or.inl rfl
    | [a], _ =>
      by_cases hs : (is_separated_flag a || is_attached_form a) = true
      · exact Or.inr ⟨a, rfl, hs, by simp [find_hash_args, spec_hash_args, hs]⟩
      · exact Or.inl (by simp [find_hash_args, spec_hash_args, hs])
    | a :: v :: rest, hlen =>
      have hl1 : rest.length ≤ n := by simp at hlen; omega
      have hl2 : (v :: rest).length ≤ n := by simp at hlen ⊢; omega
      by_cases h1 : is_separated_flag a = true
      · have e1 : find_hash_args (a :: v :: rest) = find_hash_args rest := by
          unfold is_separated_flag at h1
          simp only [find_hash_args, h1, if_true]
        have e2 : spec_hash_args (a :: v :: rest) = spec_hash_args rest := by
          simp only [spec_hash_args, h1, if_true]
        rw [e1, e2]
        rcases ih rest hl1 with h | ⟨z, hz, hs, h⟩
        · exact Or.inl h
        · refine Or.inr ⟨z, ?_, hs, h⟩
          cases rest with
          | nil => cases hz
          | cons r rs => simpa [List.getLast?_cons_cons] using hz
      · by_cases h2 : is_attached_form a = true
        · have e1 : find_hash_args (a :: v :: rest) = find_hash_args (v :: rest) := by
            unfold is_separated_flag at h1
            unfold is_attached_form at h2
            simp only [find_hash_args, h1, h2, if_true, if_false, Bool.false_eq_true]
          have e2 : spec_hash_args (a :: v :: rest) = spec_hash_args (v :: rest) := by
            simp only [spec_hash_args, h1, h2, if_true, if_false, Bool.false_eq_true]
          rw [e1, e2, List.getLast?_cons_cons]
          exact ih (v :: rest) hl2
        · have e1 : find_hash_args (a :: v :: rest) = a :: find_hash_args (v :: rest) := by
            unfold is_separated_flag at h1
            unfold is_attached_form at h2
            simp only [find_hash_args, h1, h2, if_false, Bool.false_eq_true]
          have e2 : spec_hash_args (a :: v :: rest) = a :: spec_hash_args (v :: rest) := by
            simp only [spec_hash_args, h1, h2, if_false, Bool.false_eq_true]
          rw [e1, e2, List.getLast?_cons_cons]
          rcases ih (v :: rest) hl2 with h | ⟨z, hz, hs, h⟩
          · exact Or.inl (by rw [h])
          · exact Or.inr ⟨z, hz, hs, by rw [h]; rfl⟩

theorem getD_append_cons (pre : List Nat) (x : Nat) (rs : List Nat) :
    (pre ++ x :: rs).getD pre.length 0 = x := by
  induction pre with
  | nil => rfl
  | cons p ps ih => simpa using ih

theorem Scan.map_eq_done {α β : Type} (f : α → β) (r : Scan α) (y : β)
    (h : r.map f = .done y) : ∃ x, r = .done x ∧ f x = y := by
  cases r with
  | done a => exact ⟨a, rfl, by simpa [Scan.map] using h⟩
  | overflow => cases h
  | unfinished => cases h

theorem scan_line_spec (map : List Nat) (hsize : map.length ≤ INT_MAX) :
    ∀ (line pre rem : List Nat) (fuel : Nat), map = pre ++ line ++ rem → 10 ∉ line →
      (rem = [] ∨ rem.head? = some 10) → line.length + 1 ≤ fuel →
      scan_line map map.length fuel pre.length = .done (pre.length + line.length) := by
  intro line
  induction line with
  | nil =>
    intro pre rem fuel hmap _ hrem hfuel
    cases fuel with
    | zero => simp at hfuel
    | succ f =>
      unfold scan_line
      have hcond : ¬(pre.length < map.length ∧ map.getD pre.length 0 ≠ 10) := by
        rintro ⟨h1, h2⟩
        rcases hrem with hrem | hrem
        · subst hrem; rw [hmap] at h1; simp at h1
        · cases rem with
          | nil => cases hrem
          | cons r rs =>
            simp at hrem
            subst hrem
            apply h2
            rw [hmap, List.append_nil]
            exact getD_append_cons pre 10 rs
      rw [if_neg hcond]; rfl
  | cons b line ih =>
    intro pre rem fuel hmap h10 hrem hfuel
    cases fuel with
    | zero => simp at hfuel
    | succ f =>
      unfold scan_line
      have hb : b ≠ 10 := fun e => h10 (by rw [e]; exact List.mem_cons_self _ _)
      have hcond : pre.length < map.length ∧ map.getD pre.length 0 ≠ 10 := by
        constructor
        · rw [hmap]; simp
        · rw [hmap, List.append_assoc, List.cons_append, getD_append_cons]
          exact hb
      have hle : pre.length + 1 ≤ INT_MAX := by
        have := hcond.1
        omega
      rw [if_pos hcond, if_pos hle]
      have := ih (pre ++ [b]) rem f (by rw [hmap]; simp)
        (fun hm => h10 (List.mem_cons_of_mem _ hm)) hrem (by simp at hfuel; omega)
      simp only [List.length_append, List.length_singleton] at this
      rw [this]
      simp only [List.length_cons]
      congr 1
      omega

theorem split_at_newline (L : List Nat) :
    ∃ line rem, L = line ++ rem ∧ 10 ∉ line ∧ (rem = [] ∨ ∃ rest, rem = 10 :: rest) := by
  refine ⟨L.takeWhile (fun b => decide (b ≠ 10)), L.dropWhile (fun b => decide (b ≠ 10)),
    (List.takeWhile_append_dropWhile _ L).symm, ?_, ?_⟩
  · intro hm
    have := List.mem_takeWhile_imp hm
    simp at this
  · have := List.head?_dropWhile_not (fun b => decide (b ≠ 10)) L
    cases hd : L.dropWhile (fun b => decide (b ≠ 10)) with
    | nil => exact Or.inl rfl
    | cons x xs =>
      rw [hd] at this
      simp at this
      exact Or.inr ⟨xs, by rw [this]⟩

theorem lines_with_newline_append (rest : List Nat) :
    ∀ line : List Nat, 10 ∉ line →
      lines_with_newline (line ++ 10 :: rest) = (line ++ [10]) :: lines_with_newline rest := by
  intro line
  induction line with
  | nil => intro _; simp [lines_with_newline]
  | cons b line ih =>
    intro h10
    have hb : b ≠ 10 := fun e => h10 (by rw [e]; exact List.mem_cons_self _ _)
    have := ih (fun hm => h10 (List.mem_cons_of_mem _ hm))
    have e : (b :: line) ++ 10 :: rest = b :: (line ++ 10 :: rest) := rfl
    rw [e, show lines_with_newline (b :: (line ++ 10 :: rest))
        = (if b = 10 then [10] :: lines_with_newline (line ++ 10 :: rest)
           else match lines_with_newline (line ++ 10 :: rest) with
             | [] => [[b]]
             | l :: ls => (b :: l) :: ls) from rfl,
      if_neg hb, this]
    rfl

theorem directive_test_iff (line rest : List Nat) (h10 : 10 ∉ line) :
    (line.length > 2 ∧ (line ++ 10 :: rest).getD 0 0 = 35 ∧ (line ++ 10 :: rest).getD 1 0 = 32 ∧
        is_digit ((line ++ 10 :: rest).getD 2 0) = true)
      ↔ is_line_directive (line ++ [10]) = true := by
  rcases line with _ | ⟨a, _ | ⟨b, _ | ⟨c, tl⟩⟩⟩
  · simp [is_line_directive]
  · simp only [List.length_singleton, gt_iff_lt, List.singleton_append]
    constructor
    · rintro ⟨h, _⟩; omega
    · intro h
      unfold is_line_directive at h
      split at h
      · rename_i heq; cases heq
      · cases h
  · simp only [List.length_cons, List.length_nil, gt_iff_lt, List.cons_append, List.nil_append]
    constructor
    · rintro ⟨h, _⟩; omega
    · intro h
      unfold is_line_directive at h
      split at h
      · rename_i heq
        simp only [List.cons.injEq] at heq
        obtain ⟨_, _, h3, _⟩ := heq
        subst h3
        exact absurd h (by decide)
      · cases h
  · simp only [List.length_cons, gt_iff_lt, List.cons_append, List.getD_cons_zero,
      List.getD_cons_succ]
    constructor
    · rintro ⟨_, ha, hb, hc⟩
      subst ha; subst hb
      simpa [is_line_directive] using hc
    · intro h
      unfold is_line_directive at h
      split at h
      · rename_i heq
        simp only [List.cons.injEq] at heq
        obtain ⟨h1, h2, h3, _⟩ := heq
        subst h1; subst h2; subst h3
        exact ⟨by omega, rfl, rfl, h⟩
      · cases h

theorem getD_drop_add (map : List Nat) (l_start k : Nat) :
    map.getD (l_start + k) 0 = (map.drop l_start).getD k 0 := by
  simp [List.getD_eq_getElem?_getD, List.getElem?_drop]

theorem read_within_file (map : List Nat) (beyond : Nat → Nat) (l_start k : Nat)
    (h : l_start + k ≤ map.length) :
    (List.range k).map (fun j => mapped_memory map beyond (l_start + j))
      = (map.drop l_start).take k := by
  apply List.ext_getElem
  · simp; omega
  · intro n h1 h2
    simp only [List.length_map, List.length_range] at h1
    simp only [List.getElem_map, List.getElem_range, List.getElem_take, List.getElem_drop]
    unfold mapped_memory
    have hlt : l_start + n < map.length := by omega
    rw [if_pos hlt, List.getD_eq_getElem _ _ hlt]

theorem stabs_hash_line (map : List Nat) (hsize : map.length ≤ INT_MAX) (l_start : Nat)
    (hlt : l_start < map.length) :
    ∃ line rem, map.drop l_start = line ++ rem ∧ 10 ∉ line ∧
      (rem = [] ∨ ∃ rest, rem = 10 :: rest) ∧
      scan_line map map.length (map.length - l_start + 1) l_start
        = .done (l_start + line.length) := by
  obtain ⟨line, rem, hL, h10, hrem⟩ := split_at_newline (map.drop l_start)
  refine ⟨line, rem, hL, h10, hrem, ?_⟩
  have hmap : map = map.take l_start ++ line ++ rem := by
    rw [List.append_assoc, ← hL, List.take_append_drop]
  have hlen : (map.take l_start).length = l_start := by
    rw [List.length_take]; omega
  have hfuel : line.length + 1 ≤ map.length - l_start + 1 := by
    have := congrArg List.length hL
    simp at this
    omega
  have hrem2 : rem = [] ∨ rem.head? = some 10 := by
    rcases hrem with h | ⟨rest, h⟩
    · exact Or.inl h
    · exact Or.inr (by rw [h]; rfl)
  have := scan_line_spec map hsize line (map.take l_start) rem (map.length - l_start + 1) hmap
    h10 hrem2 hfuel
  rw [hlen] at this
  exact this

theorem scan_line_never_unfinished (map : List Nat) (size : Nat) :
    ∀ (fuel l_end : Nat), size - l_end + 1 ≤ fuel →
      scan_line map size fuel l_end ≠ .unfinished := by
  intro fuel
  induction fuel with
  | zero => intro l_end h; omega
  | succ f ih =>
    intro l_end h
    unfold scan_line
    split
    · rename_i hc
      split
      · exact ih (l_end + 1) (by omega)
      · intro e; cases e
    · intro e; cases e

theorem scan_line_ge (map : List Nat) (size : Nat) :
    ∀ (fuel l_end r : Nat), scan_line map size fuel l_end = .done r → l_end ≤ r := by
  intro fuel
  induction fuel with
  | zero => intro l_end r h; cases h
  | succ f ih =>
    intro l_end r h
    unfold scan_line at h
    split at h
    · split at h
      · have := ih _ _ h; omega
      · cases h
    · simp only [Scan.done.injEq] at h; omega

theorem stabs_hash_loop_never_unfinished (map : List Nat) (size : Nat) :
    ∀ (fuel l_start : Nat), size - l_start + 1 ≤ fuel →
      stabs_hash_loop map size fuel l_start ≠ .unfinished := by
  intro fuel
  induction fuel with
  | zero => intro l_start h; omega
  | succ f ih =>
    intro l_start h
    unfold stabs_hash_loop
    split
    · rename_i hlt
      have hs := scan_line_never_unfinished map size (size - l_start + 1) l_start (le_refl _)
      cases hscan : scan_line map size (size - l_start + 1) l_start with
      | unfinished => exact absurd hscan hs
      | overflow => intro e; cases e
      | done l_end =>
        have hge := scan_line_ge map size _ _ _ hscan
        have hnext := ih (l_end + 1) (by omega)
        simp only
        split
        · split
          · exact hnext
          · intro e; cases e
        · split
          · intro e
            cases hr : stabs_hash_loop map size f (l_end + 1) with
            | unfinished => exact hnext hr
            | overflow => rw [hr] at e; cases e
            | done c => rw [hr] at e; cases e
          · intro e; cases e
    · intro e; cases e

/-- The bound on the number of tests in `stabs_hash_calls` is never used up,
whatever the size of the file: the scan loop either ends or runs into the
overflow of an `int`. -/
theorem stabs_hash_never_unfinished (map : List Nat) :
    stabs_hash_calls map ≠ .unfinished :=
  stabs_hash_loop_never_unfinished map map.length (map.length + 1) 0 (by omega)

theorem stabs_hash_loop_total (map : List Nat) (hsize : map.length < INT_MAX) :
    ∀ (fuel l_start : Nat), map.length - l_start + 1 ≤ fuel →
      ∃ calls, stabs_hash_loop map map.length fuel l_start = .done calls := by
  intro fuel
  induction fuel with
  | zero => intro l_start h; omega
  | succ f ih =>
    intro l_start h
    by_cases hlt : l_start < map.length
    · obtain ⟨line, rem, hL, _, _, hscan⟩ := stabs_hash_line map (le_of_lt hsize) l_start hlt
      have hlen : line.length ≤ map.length - l_start := by
        have := congrArg List.length hL
        simp at this
        omega
      have h1 : l_start + line.length + 1 ≤ INT_MAX := by omega
      have h2 : 1 + (l_start + line.length) ≤ INT_MAX := by omega
      obtain ⟨calls, hc⟩ := ih (l_start + line.length + 1) (by omega)
      simp only [stabs_hash_loop, if_pos hlt, hscan, hc, if_pos h1, if_pos h2]
      split
      · exact ⟨_, rfl⟩
      · exact ⟨_, rfl⟩
    · exact ⟨[], by simp only [stabs_hash_loop, if_neg hlt]⟩

/-- The scan loop of `stabs_hash` terminates for every file of less than
`INT_MAX` bytes: within `st.st_size + 1` tests of the loop condition it has
ended and made its calls. -/
theorem stabs_hash_terminates (map : List Nat) (hsize : map.length < INT_MAX) :
    ∃ calls, stabs_hash_calls map = .done calls :=
  stabs_hash_loop_total map hsize (map.length + 1) 0 (by omega)

/-- Every call of `stabs_hash` on a file of less than `INT_MAX` bytes stays
within the file or ends exactly one byte behind it. -/
theorem stabs_hash_calls_bound (map : List Nat) (hsize : map.length < INT_MAX) :
    ∀ (fuel l_start : Nat) (calls : List (Nat × Nat)),
      stabs_hash_loop map map.length fuel l_start = .done calls →
      ∀ c ∈ calls, c.1 + c.2 ≤ map.length + 1 := by
  intro fuel
  induction fuel with
  | zero => intro l_start calls h; simp [stabs_hash_loop] at h
  | succ f ih =>
    intro l_start calls h c hc
    by_cases hlt : l_start < map.length
    · obtain ⟨line, rem, hL, _, _, hscan⟩ := stabs_hash_line map (le_of_lt hsize) l_start hlt
      have hlen : line.length ≤ map.length - l_start := by
        have := congrArg List.length hL
        simp at this
        omega
      have h1 : l_start + line.length + 1 ≤ INT_MAX := by omega
      have h2 : 1 + (l_start + line.length) ≤ INT_MAX := by omega
      simp only [stabs_hash_loop, if_pos hlt, hscan, if_pos h1, if_pos h2] at h
      split at h
      · exact ih _ calls h c hc
      · obtain ⟨calls2, hr, e⟩ := Scan.map_eq_done _ _ _ h
        subst e
        rcases List.mem_cons.mp hc with hc | hc
        · subst hc; simp only; omega
        · exact ih _ calls2 hr c hc
    · simp only [stabs_hash_loop, if_neg hlt, Scan.done.injEq] at h
      subst h
      cases hc

/-- On a file that is empty or ends in a newline, the loop of `stabs_hash`
hashes exactly the input with the line-directive lines removed, every other
byte once and in order, and every call stays within the file. -/
theorem stabs_hash_loop_terminated_input (map : List Nat) (hsize : map.length < INT_MAX)
    (beyond : Nat → Nat) :
    ∀ (fuel l_start : Nat) (calls : List (Nat × Nat)), l_start ≤ map.length →
      stabs_hash_loop map map.length fuel l_start = .done calls →
      (map.drop l_start = [] ∨ (map.drop l_start).getLast? = some 10) →
      hashed_bytes (mapped_memory map beyond) calls = strip_directives (map.drop l_start) ∧
        ∀ c ∈ calls, c.1 + c.2 ≤ map.length := by
  intro fuel
  induction fuel with
  | zero => intro l_start calls _ h; simp [stabs_hash_loop] at h
  | succ f ih =>
    intro l_start calls h1 hrun hterm
    by_cases hlt : l_start < map.length
    · obtain ⟨line, rem, hL, h10, hrem, hscan⟩ :=
        stabs_hash_line map (le_of_lt hsize) l_start hlt
      have hne : map.drop l_start ≠ [] := by
        intro h
        have := congrArg List.length h
        simp at this
        omega
      obtain ⟨rest, hrest⟩ : ∃ rest, rem = 10 :: rest := by
        rcases hrem with h | h
        · exfalso
          subst h
          rcases hterm with ht | ht
          · exact hne ht
          · rw [hL, List.append_nil] at ht
            exact h10 (List.mem_of_getLast?_eq_some ht)
        · exact h
      subst hrest
      have hlen : l_start + line.length + 1 ≤ map.length := by
        have := congrArg List.length hL
        simp at this
        omega
      have hi1 : l_start + line.length + 1 ≤ INT_MAX := by omega
      have hi2 : 1 + (l_start + line.length) ≤ INT_MAX := by omega
      have hdrop : map.drop (l_start + line.length + 1) = rest := by
        have e : l_start + line.length + 1 = l_start + (line.length + 1) := by omega
        rw [e, ← List.drop_drop, hL]
        have e2 : line ++ 10 :: rest = (line ++ [10]) ++ rest := by simp
        rw [e2]
        have e3 : line.length + 1 = (line ++ [10]).length := by simp
        rw [e3, List.drop_left]
      have hterm2 : map.drop (l_start + line.length + 1) = [] ∨
          (map.drop (l_start + line.length + 1)).getLast? = some 10 := by
        rw [hdrop]
        cases hr : rest with
        | nil => exact Or.inl rfl
        | cons x xs =>
          right
          rcases hterm with ht | ht
          · exact absurd ht hne
          · rw [hL, hr] at ht
            have e2 : line ++ 10 :: x :: xs = (line ++ [10]) ++ (x :: xs) := by simp
            rw [e2, List.getLast?_append_of_ne_nil _ (by simp)] at ht
            exact ht
      have htest : (l_start + line.length - l_start > 2 ∧ map.getD l_start 0 = 35 ∧
            map.getD (l_start + 1) 0 = 32 ∧ is_digit (map.getD (l_start + 2) 0) = true)
          ↔ is_line_directive (line ++ [10]) = true := by
        rw [← directive_test_iff line rest h10, ← hL, ← getD_drop_add, ← getD_drop_add,
          ← getD_drop_add]
        simp
      have hstrip : strip_directives (map.drop l_start)
          = (if is_line_directive (line ++ [10]) = true then [] else line ++ [10])
            ++ strip_directives rest := by
        rw [hL]
        unfold strip_directives
        rw [lines_with_newline_append rest line h10, List.filter_cons]
        cases is_line_directive (line ++ [10]) <;> simp
      simp only [stabs_hash_loop, if_pos hlt, hscan, if_pos hi1, if_pos hi2] at hrun
      by_cases hdir : is_line_directive (line ++ [10]) = true
      · rw [if_pos (htest.mpr hdir)] at hrun
        obtain ⟨ih1, ih2⟩ := ih (l_start + line.length + 1) calls hlen hrun hterm2
        rw [hstrip, if_pos hdir, List.nil_append, ← hdrop]
        exact ⟨ih1, ih2⟩
      · rw [if_neg (fun h => hdir (htest.mp h))] at hrun
        obtain ⟨calls2, hrun2, e⟩ := Scan.map_eq_done _ _ _ hrun
        subst e
        obtain ⟨ih1, ih2⟩ := ih (l_start + line.length + 1) calls2 hlen hrun2 hterm2
        constructor
        · unfold hashed_bytes
          rw [List.flatMap_cons]
          have e : 1 + (l_start + line.length) - l_start = line.length + 1 := by omega
          simp only [e]
          rw [hstrip, if_neg hdir,
            read_within_file map beyond l_start (line.length + 1) (by omega), hL]
          have e2 : line ++ 10 :: rest = (line ++ [10]) ++ rest := by simp
          have e3 : line.length + 1 = (line ++ [10]).length := by simp
          rw [e2, e3, List.take_left]
          unfold hashed_bytes at ih1
          rw [ih1, hdrop]
        · intro c hc
          rcases List.mem_cons.mp hc with hc | hc
          · subst hc; simp only; omega
          · exact ih2 c hc
    · have : l_start = map.length := by omega
      subst this
      simp only [stabs_hash_loop, if_neg hlt, Scan.done.injEq] at hrun
      subst hrun
      simp [hashed_bytes, strip_directives, lines_with_newline]

/-- The positive part of C1 and C10: for every mapped file of less than
`INT_MAX` bytes that ends in a newline, `stabs_hash` returns, the bytes handed
to `hash_buffer` are the input with the line-directive lines removed, and
every call satisfies `offset + length <= st.st_size`. -/
theorem stabs_hash_on_newline_terminated_input (map : List Nat) (beyond : Nat → Nat)
    (hsize : map.length < INT_MAX) (hterm : map.getLast? = some 10) :
    ∃ calls, stabs_hash (some map) true = .returned calls ∧
      hashed_bytes (mapped_memory map beyond) calls = strip_directives map ∧
      ∀ c ∈ calls, c.1 + c.2 ≤ map.length := by
  obtain ⟨calls, hc⟩ := stabs_hash_terminates map hsize
  have := stabs_hash_loop_terminated_input map hsize beyond (map.length + 1) 0 calls
    (Nat.zero_le _) hc (by simpa using Or.inr hterm)
  have hne : ¬ (map.length = 0 ∨ true = false) := by
    rintro (h | h)
    · have : map = [] := List.length_eq_zero.mp h
      rw [this] at hterm; cases hterm
    · cases h
  refine ⟨calls, ?_, by simpa using this.1, this.2⟩
  unfold stabs_hash
  simp only [if_neg hne, hc]

/-- On an empty file, and whenever the file cannot be opened or mapped,
`stabs_hash` calls `failed()` and hashes nothing. -/
theorem stabs_hash_fails_without_mapping (map : List Nat) (mmap_ok : Bool) :
    stabs_hash none mmap_ok = .failed ∧ stabs_hash (some []) mmap_ok = .failed ∧
      stabs_hash (some map) false = .failed := by
  refine ⟨rfl, rfl, ?_⟩
  unfold stabs_hash
  simp

/-! ## `to_cache` and `from_cache` -/

theorem FS.set_file_same (fs : FS) (p : String) (v : Option (List Nat)) :
    (fs.set p v).file p = v := by
  simp [FS.set]

theorem FS.set_file_other (fs : FS) (p q : String) (v : Option (List Nat)) (h : q ≠ p) :
    (fs.set p v).file q = fs.file q := by
  simp [FS.set, h]

theorem FS.unlink_file_other (fs : FS) (p q : String) (h : q ≠ p) :
    (fs.unlink p).file q = fs.file q := by
  unfold FS.unlink
  cases fs.dir_err p with
  | none => exact FS.set_file_other fs p q none h
  | some e => rfl

theorem FS.rename_ok (fs fs2 : FS) (a b : String) (h : fs.rename a b = .ok fs2) :
    ∃ content, fs.file a = some content ∧ fs2 = (fs.set a none).set b (some content) := by
  unfold FS.rename at h
  cases ha : fs.file a with
  | none => rw [ha] at h; cases h
  | some content =>
    rw [ha] at h
    simp only at h
    cases hda : fs.dir_err a with
    | some e => rw [hda] at h; cases h
    | none =>
      rw [hda] at h
      simp only at h
      cases hdb : fs.dir_err b with
      | some e => rw [hdb] at h; cases h
      | none =>
        rw [hdb] at h
        simp only [Except.ok.injEq] at h
        exact ⟨content, rfl, h.symm⟩

theorem tmp_stderr_ne_tmp_stdout (ctx : Ctx) : ctx.tmp_stderr ≠ ctx.tmp_stdout := by
  intro h
  have h2 := congrArg String.data h
  simp only [Ctx.tmp_stderr, Ctx.tmp_stdout, String.data_append, List.append_assoc] at h2
  have h3 := List.append_cancel_left h2
  simp at h3

theorem tmp_hashname_ne_tmp_stdout (ctx : Ctx) : ctx.tmp_hashname ≠ ctx.tmp_stdout := by
  intro h
  have h2 := congrArg String.data h
  simp only [Ctx.tmp_hashname, Ctx.tmp_stdout, String.data_append, List.append_assoc] at h2
  have h3 := List.append_cancel_left h2
  simp at h3

theorem tmp_stderr_ne_tmp_hashname (ctx : Ctx) : ctx.tmp_stderr ≠ ctx.tmp_hashname := by
  intro h
  have h2 := congrArg String.data h
  simp only [Ctx.tmp_stderr, Ctx.tmp_hashname, String.data_append, List.append_assoc] at h2
  have h3 := List.append_cancel_left h2
  simp at h3

theorem tmp_stderr_ne_hashname (ctx : Ctx) (c : Char) (rest : String)
    (hkey : ctx.hashname = hashname_of ctx.cache_dir c rest) : ctx.tmp_stderr ≠ ctx.hashname := by
  intro h
  rw [hkey] at h
  have h2 := congrArg String.data h
  simp only [Ctx.tmp_stderr, hashname_of, String.data_append, List.append_assoc] at h2
  have h3 := List.append_cancel_left h2
  have e2 : (String.singleton c).data = [c] := rfl
  rw [e2] at h3
  simp at h3

theorem hashname_ne_path_stderr (ctx : Ctx) : ctx.hashname ≠ ctx.path_stderr := by
  intro e
  have := congrArg String.length e
  simp [Ctx.path_stderr, String.length_append] at this
  revert this; decide

/-- What a normal return of `to_cache` leaves behind: the object and the
standard error the compiler wrote are the cache entry. -/
theorem to_cache_returned (execute : List String → String → String → FS → Int × FS)
    (ctx : Ctx) (args : List String) (w : World) (c : Char) (rest : String)
    (hkey : ctx.hashname = hashname_of ctx.cache_dir c rest)
    (hins : (to_cache execute ctx args w).1 = .returned ()) :
    ∃ obj err,
      (execute (args ++ ["-o", ctx.tmp_hashname]) ctx.tmp_stdout ctx.tmp_stderr w.fs).2.file
        ctx.tmp_hashname = some obj ∧
      (execute (args ++ ["-o", ctx.tmp_hashname]) ctx.tmp_stdout ctx.tmp_stderr w.fs).2.file
        ctx.tmp_stderr = some err ∧
      (execute (args ++ ["-o", ctx.tmp_hashname]) ctx.tmp_stdout ctx.tmp_stderr w.fs).1 = 0 ∧
      (to_cache execute ctx args w).2.fs.file ctx.hashname = some obj ∧
      (to_cache execute ctx args w).2.fs.file ctx.path_stderr = some err ∧
      (to_cache execute ctx args w).2.fd2 = w.fd2 := by
  unfold to_cache at hins ⊢
  generalize execute (args ++ ["-o", ctx.tmp_hashname]) ctx.tmp_stdout ctx.tmp_stderr w.fs
    = run at hins ⊢
  simp only at hins ⊢
  by_cases h1 : run.2.stat ctx.tmp_stdout ≠ some 0
  · rw [if_pos h1] at hins; cases hins
  rw [if_neg h1] at hins ⊢
  by_cases h2 : run.1 ≠ 0
  · rw [if_pos h2] at hins
    revert hins
    cases (run.2.unlink ctx.tmp_stdout).open_read ctx.tmp_stderr with
    | none => intro hins; cases hins
    | some err =>
      simp only
      cases (run.2.unlink ctx.tmp_stdout).rename ctx.tmp_hashname ctx.output_file with
      | ok fs3 => intro hins; cases hins
      | error e =>
        simp only
        split <;> intro hins <;> cases hins
  rw [if_neg h2] at hins ⊢
  have hst : run.1 = 0 := not_not.mp h2
  by_cases h3 : (run.2.unlink ctx.tmp_stdout).stat ctx.tmp_stderr = none
  · rw [if_pos h3] at hins; cases hins
  rw [if_neg h3] at hins ⊢
  by_cases h4 : (run.2.unlink ctx.tmp_stdout).stat ctx.tmp_hashname = none
  · rw [if_pos h4] at hins; cases hins
  rw [if_neg h4] at hins ⊢
  revert hins
  cases h5 : (run.2.unlink ctx.tmp_stdout).rename ctx.tmp_hashname ctx.hashname with
  | error e => intro hins; cases hins
  | ok fs3 =>
    simp only
    cases h6 : fs3.rename ctx.tmp_stderr ctx.path_stderr with
    | error e => intro hins; cases hins
    | ok fs4 =>
      intro _
      simp only
      obtain ⟨obj, ho, e3⟩ := FS.rename_ok _ _ _ _ h5
      obtain ⟨err, he, e4⟩ := FS.rename_ok _ _ _ _ h6
      rw [FS.unlink_file_other _ _ _ (tmp_hashname_ne_tmp_stdout ctx)] at ho
      have hne1 := tmp_stderr_ne_hashname ctx c rest hkey
      have hne2 := tmp_stderr_ne_tmp_hashname ctx
      rw [e3, FS.set_file_other _ _ _ _ hne1, FS.set_file_other _ _ _ _ hne2,
        FS.unlink_file_other _ _ _ (tmp_stderr_ne_tmp_stdout ctx)] at he
      refine ⟨obj, err, ho, he, hst, ?_, ?_, trivial⟩
      · rw [e4, FS.set_file_other _ _ _ _ (hashname_ne_path_stderr ctx),
          FS.set_file_other _ _ _ _ (Ne.symm hne1), e3, FS.set_file_same]
      · rw [e4, FS.set_file_same]

/-- C7, as stated, fails: with `-o nodir/a.o`, where the directory `nodir`
does not exist, `to_cache` returns normally (exit 0, empty stdout, both renames
succeed), and the following `from_cache(0)` does not exit: `link` fails with
`ENOENT`, the lookup counts a miss, removes the `.stderr` file and returns. -/
theorem from_cache_returns_when_output_directory_missing :
    (to_cache (sample_execute 0 [] [119] (some [1, 2, 3])) (sample_ctx "nodir/a.o")
      ["cc", "-c", "a.c"] { fs := sample_fs "nodir/a.o", fd2 := [] }).1 = .returned () ∧
    (from_cache (sample_ctx "nodir/a.o") false
      (to_cache (sample_execute 0 [] [119] (some [1, 2, 3])) (sample_ctx "nodir/a.o")
        ["cc", "-c", "a.c"] { fs := sample_fs "nodir/a.o", fd2 := [] }).2).1 = .returned () ∧
    (from_cache (sample_ctx "nodir/a.o") false
      (to_cache (sample_execute 0 [] [119] (some [1, 2, 3])) (sample_ctx "nodir/a.o")
        ["cc", "-c", "a.c"] { fs := sample_fs "nodir/a.o", fd2 := [] }).2).2.fd2 = [] := by
  decide

/-- The same failure when `output_file` is the artifact path itself:
`unlink(output_file)` removes the artifact and `link` finds nothing to link. -/
theorem from_cache_returns_when_output_is_the_artifact :
    (to_cache (sample_execute 0 [] [119] (some [1, 2, 3])) (sample_ctx "/c/a/b")
      ["cc", "-c", "a.c"] { fs := sample_fs "", fd2 := [] }).1 = .returned () ∧
    (from_cache (sample_ctx "/c/a/b") false
      (to_cache (sample_execute 0 [] [119] (some [1, 2, 3])) (sample_ctx "/c/a/b")
        ["cc", "-c", "a.c"] { fs := sample_fs "", fd2 := [] }).2).1 = .returned () := by
  decide

/-- C7 (amended): for every state in which `to_cache` returns normally, with
`hashname` the path `find_hash` forms, `output_file` not the artifact path
itself and a name that can be created and removed in its directory, the
following `from_cache(0)` exits with status 0, leaves `output_file` with the
content of the artifact at the fingerprint path, which is the object the
compiler wrote, and writes to fd 2 exactly the stderr bytes captured during
the insert (the content of the temp stderr file after the compiler ran). -/
theorem insert_then_lookup_round_trip
    (execute : List String → String → String → FS → Int × FS)
    (ctx : Ctx) (args : List String) (w : World) (c : Char) (rest : String)
    (hkey : ctx.hashname = hashname_of ctx.cache_dir c rest)
    (hins : (to_cache execute ctx args w).1 = .returned ())
    (hne : ctx.output_file ≠ ctx.hashname)
    (hdir : (to_cache execute ctx args w).2.fs.dir_err ctx.output_file = none) :
    ∃ obj err,
      (execute (args ++ ["-o", ctx.tmp_hashname]) ctx.tmp_stdout ctx.tmp_stderr w.fs).2.file
        ctx.tmp_hashname = some obj ∧
      (execute (args ++ ["-o", ctx.tmp_hashname]) ctx.tmp_stdout ctx.tmp_stderr w.fs).2.file
        ctx.tmp_stderr = some err ∧
      (to_cache execute ctx args w).2.fs.file ctx.hashname = some obj ∧
      (from_cache ctx false (to_cache execute ctx args w).2).1 = .exited 0 ∧
      (from_cache ctx false (to_cache execute ctx args w).2).2.fs.file ctx.output_file
        = some obj ∧
      (from_cache ctx false (to_cache execute ctx args w).2).2.fs.file ctx.hashname
        = some obj ∧
      (from_cache ctx false (to_cache execute ctx args w).2).2.fd2 = w.fd2 ++ err := by
  obtain ⟨obj, err, ho, he, _, h1, h2, h3⟩ :=
    to_cache_returned execute ctx args w c rest hkey hins
  refine ⟨obj, err, ho, he, h1, ?_⟩
  generalize (to_cache execute ctx args w).2 = w1 at h1 h2 h3 hdir
  have hu : w1.fs.unlink ctx.output_file = w1.fs.set ctx.output_file none := by
    unfold FS.unlink; rw [hdir]
  have hst : w1.fs.stat ctx.hashname ≠ none := by
    unfold FS.stat; rw [h1]; simp
  have hsrc : (w1.fs.set ctx.output_file none).file ctx.hashname = some obj := by
    rw [FS.set_file_other _ _ _ _ (Ne.symm hne), h1]
  have hdst : (w1.fs.set ctx.output_file none).file ctx.output_file = none :=
    FS.set_file_same _ _ _
  have hd2 : (w1.fs.set ctx.output_file none).dir_err ctx.output_file = none := hdir
  unfold from_cache
  simp only [FS.open_read, h2, if_neg hst, hu]
  unfold FS.link
  simp only [hsrc, hdst, hd2]
  cases hh : (w1.fs.set ctx.output_file none).hardlinks with
  | true =>
    simp only [if_true]
    exact ⟨trivial, FS.set_file_same _ _ _,
      by rw [FS.set_file_other _ _ _ _ (Ne.symm hne)]; exact hsrc, by rw [h3]⟩
  | false =>
    simp only [Bool.false_eq_true, if_false]
    have hne2 : Errno.EXDEV ≠ Errno.ENOENT := by decide
    simp only [if_neg hne2]
    unfold copy_file
    simp only [hsrc, hd2]
    exact ⟨trivial, FS.set_file_same _ _ _,
      by rw [FS.set_file_other _ _ _ _ (Ne.symm hne)]; exact hsrc, by rw [h3]⟩

theorem insert_then_lookup_round_trip_witness :
    (sample_ctx "a.o").hashname = hashname_of (sample_ctx "a.o").cache_dir 'a' "b" ∧
    (to_cache (sample_execute 0 [] [119] (some [1, 2, 3])) (sample_ctx "a.o")
      ["cc", "-c", "a.c"] { fs := sample_fs "nodir/a.o", fd2 := [] }).1 = .returned () ∧
    (sample_ctx "a.o").output_file ≠ (sample_ctx "a.o").hashname ∧
    (to_cache (sample_execute 0 [] [119] (some [1, 2, 3])) (sample_ctx "a.o")
      ["cc", "-c", "a.c"] { fs := sample_fs "nodir/a.o", fd2 := [] }).2.fs.dir_err
        (sample_ctx "a.o").output_file = none ∧
    ∃ obj err,
      (sample_execute 0 [] [119] (some [1, 2, 3])
        (["cc", "-c", "a.c"] ++ ["-o", (sample_ctx "a.o").tmp_hashname])
        (sample_ctx "a.o").tmp_stdout (sample_ctx "a.o").tmp_stderr
        (sample_fs "nodir/a.o")).2.file (sample_ctx "a.o").tmp_hashname = some obj ∧
      (sample_execute 0 [] [119] (some [1, 2, 3])
        (["cc", "-c", "a.c"] ++ ["-o", (sample_ctx "a.o").tmp_hashname])
        (sample_ctx "a.o").tmp_stdout (sample_ctx "a.o").tmp_stderr
        (sample_fs "nodir/a.o")).2.file (sample_ctx "a.o").tmp_stderr = some err ∧
      (to_cache (sample_execute 0 [] [119] (some [1, 2, 3])) (sample_ctx "a.o")
        ["cc", "-c", "a.c"] { fs := sample_fs "nodir/a.o", fd2 := [] }).2.fs.file
          (sample_ctx "a.o").hashname = some obj ∧
      (from_cache (sample_ctx "a.o") false
        (to_cache (sample_execute 0 [] [119] (some [1, 2, 3])) (sample_ctx "a.o")
          ["cc", "-c", "a.c"] { fs := sample_fs "nodir/a.o", fd2 := [] }).2).1 = .exited 0 ∧
      (from_cache (sample_ctx "a.o") false
        (to_cache (sample_execute 0 [] [119] (some [1, 2, 3])) (sample_ctx "a.o")
          ["cc", "-c", "a.c"] { fs := sample_fs "nodir/a.o", fd2 := [] }).2).2.fs.file
            (sample_ctx "a.o").output_file = some obj ∧
      (from_cache (sample_ctx "a.o") false
        (to_cache (sample_execute 0 [] [119] (some [1, 2, 3])) (sample_ctx "a.o")
          ["cc", "-c", "a.c"] { fs := sample_fs "nodir/a.o", fd2 := [] }).2).2.fs.file
            (sample_ctx "a.o").hashname = some obj ∧
      (from_cache (sample_ctx "a.o") false
        (to_cache (sample_execute 0 [] [119] (some [1, 2, 3])) (sample_ctx "a.o")
          ["cc", "-c", "a.c"] { fs := sample_fs "nodir/a.o", fd2 := [] }).2).2.fd2
            = ([] : List Nat) ++ err :=
  ⟨rfl, by decide, by decide, by decide,
    insert_then_lookup_round_trip (sample_execute 0 [] [119] (some [1, 2, 3])) (sample_ctx "a.o")
      ["cc", "-c", "a.c"] { fs := sample_fs "nodir/a.o", fd2 := [] } 'a' "b" rfl
      (by decide) (by decide) (by decide)⟩

/-- Whenever the compiler succeeds with empty stdout and the first `rename`
into the cache fails, `to_cache` ends in `failed()` and leaves the temp
artifact and the temp stderr file where they are. -/
theorem to_cache_rename_failure_keeps_temp_files
    (execute : List String → String → String → FS → Int × FS)
    (ctx : Ctx) (args : List String) (w : World) (obj err : List Nat) (e : Errno)
    (hstatus : (execute (args ++ ["-o", ctx.tmp_hashname]) ctx.tmp_stdout ctx.tmp_stderr
      w.fs).1 = 0)
    (hout : (execute (args ++ ["-o", ctx.tmp_hashname]) ctx.tmp_stdout ctx.tmp_stderr
      w.fs).2.stat ctx.tmp_stdout = some 0)
    (herr : (execute (args ++ ["-o", ctx.tmp_hashname]) ctx.tmp_stdout ctx.tmp_stderr
      w.fs).2.file ctx.tmp_stderr = some err)
    (hobj : (execute (args ++ ["-o", ctx.tmp_hashname]) ctx.tmp_stdout ctx.tmp_stderr
      w.fs).2.file ctx.tmp_hashname = some obj)
    (hren : (((execute (args ++ ["-o", ctx.tmp_hashname]) ctx.tmp_stdout ctx.tmp_stderr
      w.fs).2).unlink ctx.tmp_stdout).rename ctx.tmp_hashname ctx.hashname = .error e) :
    (to_cache execute ctx args w).1 = .failed ∧
    (to_cache execute ctx args w).2.fs.file ctx.tmp_hashname = some obj ∧
    (to_cache execute ctx args w).2.fs.file ctx.tmp_stderr = some err := by
  unfold to_cache
  generalize execute (args ++ ["-o", ctx.tmp_hashname]) ctx.tmp_stdout ctx.tmp_stderr w.fs
    = run at hstatus hout herr hobj hren
  have h1 : ¬ run.2.stat ctx.tmp_stdout ≠ some 0 := not_not.mpr hout
  have h2 : ¬ run.1 ≠ 0 := not_not.mpr hstatus
  have herr2 : (run.2.unlink ctx.tmp_stdout).file ctx.tmp_stderr = some err := by
    rw [FS.unlink_file_other _ _ _ (tmp_stderr_ne_tmp_stdout ctx)]; exact herr
  have hobj2 : (run.2.unlink ctx.tmp_stdout).file ctx.tmp_hashname = some obj := by
    rw [FS.unlink_file_other _ _ _ (tmp_hashname_ne_tmp_stdout ctx)]; exact hobj
  have h3 : ¬ (run.2.unlink ctx.tmp_stdout).stat ctx.tmp_stderr = none := by
    unfold FS.stat; rw [herr2]; simp
  have h4 : ¬ (run.2.unlink ctx.tmp_stdout).stat ctx.tmp_hashname = none := by
    unfold FS.stat; rw [hobj2]; simp
  simp only [if_neg h1, if_neg h2, if_neg h3, if_neg h4, hren]
  exact ⟨trivial, hobj2, herr2⟩

theorem to_cache_rename_failure_keeps_temp_files_witness :
    (to_cache (sample_execute 0 [] [119] (some [1, 2, 3])) (sample_ctx "a.o")
      ["cc", "-c", "a.c"] { fs := sample_fs "/c/a/b", fd2 := [] }).1 = .failed ∧
    (to_cache (sample_execute 0 [] [119] (some [1, 2, 3])) (sample_ctx "a.o")
      ["cc", "-c", "a.c"] { fs := sample_fs "/c/a/b", fd2 := [] }).2.fs.file
        (sample_ctx "a.o").tmp_hashname = some [1, 2, 3] ∧
    (to_cache (sample_execute 0 [] [119] (some [1, 2, 3])) (sample_ctx "a.o")
      ["cc", "-c", "a.c"] { fs := sample_fs "/c/a/b", fd2 := [] }).2.fs.file
        (sample_ctx "a.o").tmp_stderr = some [119] :=
  to_cache_rename_failure_keeps_temp_files (sample_execute 0 [] [119] (some [1, 2, 3]))
    (sample_ctx "a.o") ["cc", "-c", "a.c"] { fs := sample_fs "/c/a/b", fd2 := [] }
    [1, 2, 3] [119] Errno.ENOENT (by decide) (by decide) (by decide) (by decide) rfl

/-- C8 (failing inputs): two runs of `to_cache` that end in `failed()` with
temp files of the invocation left in the cache directory. In the first the
compiler exits 0 with empty stdout and writes no object file: `stat` of the
temp artifact fails and `tmp.stderr.7` stays. In the second the shard
directory of the artifact is missing: the first `rename` fails and both
`tmp.hash.7.o` and `tmp.stderr.7` stay. -/
theorem to_cache_fails_leaving_temp_files :
    ((to_cache (sample_execute 0 [] [119] none) (sample_ctx "a.o")
        ["cc", "-c", "a.c"] { fs := sample_fs "", fd2 := [] }).1 = .failed ∧
     (to_cache (sample_execute 0 [] [119] none) (sample_ctx "a.o")
        ["cc", "-c", "a.c"] { fs := sample_fs "", fd2 := [] }).2.fs.file "/c/tmp.stderr.7"
        = some [119]) ∧
    ((to_cache (sample_execute 0 [] [119] (some [1, 2, 3])) (sample_ctx "a.o")
        ["cc", "-c", "a.c"] { fs := sample_fs "/c/a/b", fd2 := [] }).1 = .failed ∧
     (to_cache (sample_execute 0 [] [119] (some [1, 2, 3])) (sample_ctx "a.o")
        ["cc", "-c", "a.c"] { fs := sample_fs "/c/a/b", fd2 := [] }).2.fs.file "/c/tmp.hash.7.o"
        = some [1, 2, 3] ∧
     (to_cache (sample_execute 0 [] [119] (some [1, 2, 3])) (sample_ctx "a.o")
        ["cc", "-c", "a.c"] { fs := sample_fs "/c/a/b", fd2 := [] }).2.fs.file "/c/tmp.stderr.7"
        = some [119]) := by
  decide

/-! ## `find_compiler` -/

end Ccache
